import Mathlib

/-!
Verification of the equation-parser pipeline of this repository
(`equation_parser.py`).

The Python code delegates expression handling to the sympy library
(`sympify`, automatic `Add`/`Mul`/`Pow` canonicalization, `as_poly`,
`free_symbols`).  Since sympy is a third-party dependency, the development
below embeds, next to a direct transcription of `equation_parser.py`, an
explicit executable model of the sympy fragment the parser exercises:

* expressions are the tagged union `SymExpr` (sympy has no quotient node:
  `a / b` is built as `Mul(a, Pow(b, -1))`, and numeric division folds into
  an exact `Rational`);
* `addE`, `mulE`, `powE` model the automatic flattening/folding performed by
  `Add.flatten`, `Mul.flatten` and `Pow.__new__`: nested same-kind nodes are
  merged, numeric factors/terms are folded into a single coefficient that is
  stored first, a rational coefficient distributes over a lone `Add` factor
  (sympy's rule 2*(1+a) = 2 + 2*a), and like terms are collected;
* `polyDeg` models `expr.as_poly(*gens).degree()`: definedness of the
  polynomial form over the given generators and the degree **in one chosen
  generator** (sympy's `Poly.degree()` is the degree in the first generator,
  not the total degree);
* `symSub` models `lhs - rhs`, which raises `TypeError` when an operand is a
  relational/boolean (modern sympy relationals are not `Expr`); failure is
  `none` and the callers transcribe faithfully which call sites catch it.

Model limitations (documented, none of them reachable by the concrete
inputs used in the theorems below): argument ordering inside `Add`/`Mul`
uses a simple deterministic key instead of sympy's `default_sort_key`
(they agree on the inputs evaluated here, and the numeric coefficient is
stored first in both); merging of equal bases inside `Mul` (`x*x = x**2`)
is omitted; `as_numer_denom` does not form common denominators of sums;
named constants (`pi`, `E`) and evaluation of `log` are not modelled.

Python-level exceptions are modelled with `Except Unit`; a per-line parse
failure that the code catches is `Option.none`.
-/

/-! ## Python string primitives -/

/-- Whitespace characters recognised by Python's `str.strip()` (ASCII part). -/
def pyWS (c : Char) : Bool :=
  c = ' ' || c = '\t' || c = '\n' || c = '\x0d' || c = '\x0c' || c = '\x0b'

/-- Python `str.strip()`. -/
def pyStrip (s : List Char) : List Char :=
  ((s.dropWhile pyWS).reverse.dropWhile pyWS).reverse

/-- Split at the leftmost occurrence of `sep` (Python `s.split(sep, 1)`
restricted to the found case): returns the part before and after. -/
def splitFirst (sep : List Char) : List Char → Option (List Char × List Char)
  | [] => if sep.isPrefixOf ([] : List Char) then some ([], []) else none
  | c :: rest =>
    if sep.isPrefixOf (c :: rest) then
      some ([], (c :: rest).drop sep.length)
    else
      (splitFirst sep rest).map fun p => (c :: p.1, p.2)

/-- Python substring test (`sep in s`). -/
def containsSub (s sep : List Char) : Bool :=
  (splitFirst sep s).isSome

/-- Index of the last occurrence of a character (Python `str.rfind`). -/
def rfindChar (c : Char) (s : List Char) : Option Nat :=
  match s.reverse.findIdx? (· = c) with
  | none => none
  | some j => some (s.length - 1 - j)

/-- Split on every occurrence of a character, keeping empty pieces
(Python `str.split(c)` for a one-character separator). -/
def splitOnChar (c : Char) : List Char → List (List Char)
  | [] => [[]]
  | d :: rest =>
    if d = c then [] :: splitOnChar c rest
    else
      match splitOnChar c rest with
      | [] => [[d]]
      | p :: ps => (d :: p) :: ps

/-- Global, leftmost-first, non-overlapping replacement
(Python `str.replace`), driven by fuel so that it stays kernel-computable.
`fuel ≥ s.length` makes it total on `s`. -/
def pyReplaceFuel (pat repl : List Char) : Nat → List Char → List Char
  | 0, s => s
  | fuel + 1, s =>
    match s with
    | [] => []
    | c :: rest =>
      if pat ≠ [] && pat.isPrefixOf (c :: rest) then
        repl ++ pyReplaceFuel pat repl fuel ((c :: rest).drop pat.length)
      else
        c :: pyReplaceFuel pat repl fuel rest

/-- Python `str.replace` on char lists. -/
def pyReplace (pat repl s : List Char) : List Char :=
  pyReplaceFuel pat repl s.length s

/-! ## The sympy expression fragment -/

mutual
/-- Model of the sympy expression values reachable through
`equation_parser.py`: exact numbers (`Integer`/`Rational`/`Float`, merged
into one rational constructor), symbols, flattened n-ary `Add` and `Mul`,
`Pow`, relationals (`Lt`, `Gt`, `Le`, `Ge`), applied functions
(`Abs`, `log`, undefined functions such as `f`), and the boolean results of
numeric relational evaluation.  sympy has no quotient class: division never
produces a dedicated node. -/
inductive SymExpr where
  | num (q : ℚ)
  | sym (s : String)
  | add (ts : SymExprs)
  | mul (fs : SymExprs)
  | pow (b e : SymExpr)
  | rel (r : String) (lhs rhs : SymExpr)
  | func (name : String) (args : SymExprs)
  | boolL (b : Bool)
  deriving DecidableEq

/-- Lists of `SymExpr` (spelled out so that mutual structural recursion and
decidable equality are available on Lean 4.14). -/
inductive SymExprs where
  | nil
  | cons (hd : SymExpr) (tl : SymExprs)
  deriving DecidableEq
end

/-- Convert a `SymExprs` into a standard list. -/
def SymExprs.toList : SymExprs → List SymExpr
  | .nil => []
  | .cons h t => h :: t.toList

/-- Convert a standard list into a `SymExprs`. -/
def SymExprs.ofList : List SymExpr → SymExprs
  | [] => .nil
  | h :: t => .cons h (SymExprs.ofList t)

theorem SymExprs.toList_ofList (l : List SymExpr) :
    (SymExprs.ofList l).toList = l := by
  induction l with
  | nil => rfl
  | cons h t ih => simp [SymExprs.ofList, SymExprs.toList, ih]

/-! ## The serialized JSON schema -/

mutual
/-- Model of the JSON expression nodes emitted by `_expr_to_json`.  The
`type` discriminators of the Python schema become constructors; the schema
comment in `equation_parser.py` also lists a `quotient` node type, included
here as a constructor so that its absence from every produced tree is a
real statement about `exprToJson`. -/
inductive Json where
  | constInt (n : ℤ)
  | constRat (q : ℚ)
  | constStr (s : String)
  | jvar (name : String)
  | jsum (terms : Jsons)
  | jprod (factors : Jsons)
  | jpow (base exp : Json)
  | jquotient (n d : Json)
  | jrel (r : String) (lhs rhs : Json)
  | jabs (operand : Json)
  | jcall (name : String) (args : Jsons)
  | jfuncDef (name v : String)
  | jpiecewise (branches : JBranches)
  deriving DecidableEq

/-- Lists of `Json` nodes. -/
inductive Jsons where
  | nil
  | cons (hd : Json) (tl : Jsons)
  deriving DecidableEq

/-- Piecewise branches: a condition node paired with an expression node. -/
inductive JBranches where
  | nil
  | cons (condition expression : Json) (tl : JBranches)
  deriving DecidableEq
end

/-- Convert `Jsons` to a standard list. -/
def Jsons.toList : Jsons → List Json
  | .nil => []
  | .cons h t => h :: t.toList

/-- Convert a list of `Json` to `Jsons`. -/
def Jsons.ofList : List Json → Jsons
  | [] => .nil
  | h :: t => .cons h (Jsons.ofList t)

/-- Number of branches. -/
def JBranches.length : JBranches → Nat
  | .nil => 0
  | .cons _ _ t => t.length + 1

/-- Convert branches to a list of condition/expression pairs. -/
def JBranches.toList : JBranches → List (Json × Json)
  | .nil => []
  | .cons c e t => (c, e) :: t.toList

/-! ## Python-expression syntax trees -/

mutual
/-- Raw abstract syntax of a Python arithmetic expression as produced by the
tokenizer/parser inside the `sympify` model, before sympy's automatic
evaluation builds a `SymExpr`. -/
inductive RawAst where
  | rnum (q : ℚ)
  | rvar (s : String)
  | rcall (f : String) (args : RawAsts)
  | radd (a b : RawAst)
  | rsub (a b : RawAst)
  | rmul (a b : RawAst)
  | rdiv (a b : RawAst)
  | rpow (a b : RawAst)
  | rneg (a : RawAst)
  deriving DecidableEq

/-- Lists of raw syntax trees (function-call arguments). -/
inductive RawAsts where
  | nil
  | cons (hd : RawAst) (tl : RawAsts)
  deriving DecidableEq
end

/-! ## sympy automatic canonicalization (smart constructors) -/

/-- Is this expression a numeric literal? -/
def SymExpr.isNum : SymExpr → Bool
  | .num _ => true
  | _ => false

/-- Is this expression an `Add`? -/
def SymExpr.isAdd : SymExpr → Bool
  | .add _ => true
  | _ => false

/-- Is this expression a `Mul`? -/
def SymExpr.isMul : SymExpr → Bool
  | .mul _ => true
  | _ => false

mutual
/-- Deterministic sort key modelling sympy's canonical argument ordering
(`default_sort_key`): a total order on expressions.  The exact key differs
from sympy's, but both orders are deterministic and both store the numeric
coefficient of an `Add`/`Mul` first (the coefficient is inserted at slot 0
after sorting, see `addE`/`mulE`); the orders agree on the concrete inputs
evaluated in this development. -/
def keyString : SymExpr → String
  | .num q => "0." ++ toString q.num ++ "/" ++ toString q.den
  | .sym s => "3." ++ s
  | .mul fs => "4.(" ++ keyStrings fs ++ ")"
  | .add ts => "5.(" ++ keyStrings ts ++ ")"
  | .pow b e => "6.(" ++ keyString b ++ "," ++ keyString e ++ ")"
  | .func n args => "7." ++ n ++ "(" ++ keyStrings args ++ ")"
  | .rel r a b => "8." ++ r ++ "(" ++ keyString a ++ "," ++ keyString b ++ ")"
  | .boolL b => "9." ++ toString b

/-- Key of a list of expressions, comma separated. -/
def keyStrings : SymExprs → String
  | .nil => ""
  | .cons h t => keyString h ++ "," ++ keyStrings t
end

/-- Key comparison used for canonical ordering. -/
def keyLe (a b : SymExpr) : Bool :=
  compare (keyString a) (keyString b) ≠ .gt

/-- Insert into a key-sorted list. -/
def insertSorted (x : SymExpr) : List SymExpr → List SymExpr
  | [] => [x]
  | y :: ys => if keyLe x y then x :: y :: ys else y :: insertSorted x ys

/-- Insertion sort by the canonical key (models `_addsort`/Mul arg sorting). -/
def sortByKey : List SymExpr → List SymExpr
  | [] => []
  | x :: xs => insertSorted x (sortByKey xs)

/-- Attach a rational coefficient to a (number-free) factor list, collapsing
the degenerate cases exactly as sympy's `Mul` constructor does. -/
def mkMulCoeff (c : ℚ) (fs : List SymExpr) : SymExpr :=
  if c = 0 then .num 0
  else if c = 1 then
    match fs with
    | [] => .num 1
    | [f] => f
    | l => .mul (.ofList l)
  else
    match fs with
    | [] => .num c
    | l => .mul (.ofList (.num c :: l))

/-- Multiply a number onto an expression (`Mul(c, e)` for numeric `c`), used
by the distribution rule `2*(1+a) = 2 + 2*a`. -/
def scalarMul (c : ℚ) (e : SymExpr) : SymExpr :=
  match e with
  | .num q => .num (c * q)
  | .mul fs =>
    match fs.toList with
    | .num d :: rest => mkMulCoeff (c * d) rest
    | l => mkMulCoeff c l
  | e => mkMulCoeff c [e]

/-- `as_coeff_Mul`: split off the numeric coefficient of a term, returning
the coefficient and the remaining key. -/
def splitCoeff (e : SymExpr) : ℚ × SymExpr :=
  match e with
  | .mul fs =>
    match fs.toList with
    | .num c :: rest =>
      (c, match rest with
          | [r] => r
          | l => .mul (.ofList l))
    | _ => (1, e)
  | e => (1, e)

/-- Rebuild `c * key` for a collected like-term (sympy `Add.flatten`'s
reconstruction of `terms` entries). -/
def buildTerm (c : ℚ) (k : SymExpr) : SymExpr :=
  if c = 1 then k
  else
    match k with
    | .mul fs => .mul (.cons (.num c) fs)
    | k => .mul (.ofList [.num c, k])

/-- Add a key/coefficient pair into an association list, merging with an
existing equal key (sympy's `terms` dict keeps insertion order). -/
def insertTerm (acc : List (SymExpr × ℚ)) (key : SymExpr) (c : ℚ) :
    List (SymExpr × ℚ) :=
  match acc with
  | [] => [(key, c)]
  | (k, q) :: rest =>
    if k = key then (k, q + c) :: rest
    else (k, q) :: insertTerm rest key c

/-- Model of `Add(...)` with sympy's automatic evaluation (`Add.flatten`):
one-layer flattening of `Add` arguments, folding of all numeric terms into
a single coefficient, collection of like terms, dropping of zero
coefficients, canonical sorting, the coefficient stored first, and collapse
of the empty/singleton cases.  `addAssemble` is the final collapse. -/
def addAssemble : List SymExpr → SymExpr
  | [] => .num 0
  | [t] => t
  | ts => .add (.ofList ts)

def addE (args : List SymExpr) : SymExpr :=
  let expanded := args.flatMap fun a =>
    match a with
    | .add ts => ts.toList
    | x => [x]
  let coeff : ℚ := expanded.foldl (fun s a =>
    match a with
    | .num q => s + q
    | _ => s) 0
  let nonnum := expanded.filter fun a => !a.isNum
  let pairs := nonnum.foldl (fun acc t =>
    insertTerm acc (splitCoeff t).2 (splitCoeff t).1) []
  let terms := (pairs.filter fun p => p.2 ≠ 0).map fun p => buildTerm p.2 p.1
  addAssemble
    (if coeff = 0 then sortByKey terms else .num coeff :: sortByKey terms)

/-- Collapse a power with numeric exponent onto a base (used after merging
stacked numeric exponents). -/
def mkNumPow (b : SymExpr) (q : ℚ) : SymExpr :=
  if q = 1 then b
  else if q = 0 then .num 1
  else .pow b (.num q)

/-- Model of `Pow(b, e)` with sympy's automatic evaluation: exponent one
collapses to the base, exponent zero to one, a number raised to an integer
evaluates exactly (zero to a negative power is left untouched, modelling
sympy's `zoo` escape), a base of one collapses to one
(`One._eval_power`), and `(z**m)**n` merges for an integer outer
exponent.  Fractional powers of numbers (`4**(1/2)`) are left unevaluated
in this model. -/
def powE (b e : SymExpr) : SymExpr :=
  match e with
  | .num q =>
    if q = 1 then b
    else if q = 0 then .num 1
    else
      match b with
      | .num p =>
        if q.den = 1 then
          if p = 0 ∧ q.num < 0 then .pow b e else .num (p ^ q.num)
        else if p = 1 then .num 1 else .pow b e
      | .pow b2 (.num m) => if q.den = 1 then mkNumPow b2 (m * q) else .pow b e
      | _ => .pow b e
  | _ => if b = .num 1 then .num 1 else .pow b e

/-- Model of `Mul(...)` with sympy's automatic evaluation (`Mul.flatten`):
one-layer flattening of `Mul` arguments, folding of numeric factors into a
single coefficient, zero annihilates, canonical sorting with the
coefficient first, the distribution of a number over a lone `Add` factor
(`2*(1+a) = 2 + 2*a`), and collapse of the empty/singleton cases.  Merging
of equal bases (`x*x = x**2`) is not modelled.  `mulAssemble` performs the final
assembly from the folded coefficient and the collected factors. -/
def mulAssemble (coeff : ℚ) (factors : List SymExpr) : SymExpr :=
  if coeff = 0 then .num 0
  else
    match factors with
    | [] => .num coeff
    | [f] =>
      if coeff = 1 then f
      else
        match f with
        | .add ts => addE (ts.toList.map (scalarMul coeff))
        | f => .mul (.ofList [.num coeff, f])
    | fs =>
      if coeff = 1 then .mul (.ofList (sortByKey fs))
      else .mul (.ofList (.num coeff :: sortByKey fs))

def mulE (args : List SymExpr) : SymExpr :=
  let expanded := args.flatMap fun a =>
    match a with
    | .mul fs => fs.toList
    | x => [x]
  let coeff : ℚ := expanded.foldl (fun s a =>
    match a with
    | .num q => s * q
    | _ => s) 1
  mulAssemble coeff (expanded.filter fun a => !a.isNum)

/-- Model of sympy function application for the functions reachable here:
`Abs` of a number evaluates, everything else stays an applied function. -/
def funcE (name : String) (args : List SymExpr) : SymExpr :=
  if name = "Abs" then
    match args with
    | [.num q] => .num |q|
    | _ => .func "Abs" (.ofList args)
  else .func name (.ofList args)

/-- Numeric evaluation of a relational operator. -/
def evalRel (r : String) (p q : ℚ) : Bool :=
  if r = "<" then decide (p < q)
  else if r = ">" then decide (q < p)
  else if r = "<=" then decide (p ≤ q)
  else if r = ">=" then decide (q ≤ p)
  else false

/-- Model of `Lt`/`Gt`/`Le`/`Ge`: a relational between two numbers
auto-evaluates to a boolean, anything else stays a `Relational`. -/
def relE (r : String) (a b : SymExpr) : SymExpr :=
  match a, b with
  | .num p, .num q => .boolL (evalRel r p q)
  | _, _ => .rel r a b

/-- Is this a sympy `Boolean` (a relational or a boolean literal)?
Arithmetic on these raises `TypeError` in sympy. -/
def isBoolish : SymExpr → Bool
  | .rel .. => true
  | .boolL _ => true
  | _ => false

/-- Model of the Python expression `lhs - rhs` on sympy objects: builds
`Add(lhs, Mul(-1, rhs))`, raising (`none`) when an operand is a
relational/boolean, on which sympy's `Expr` arithmetic returns
`NotImplemented` and Python raises `TypeError`. -/
def symSub (lhs rhs : SymExpr) : Option SymExpr :=
  if isBoolish lhs || isBoolish rhs then none
  else some (addE [lhs, mulE [.num (-1), rhs]])

mutual
/-- Evaluate a raw Python syntax tree into a sympy expression: every
operator becomes the corresponding sympy constructor call, exactly as
evaluating the parsed source does inside `sympify` (binary, left-to-right,
subtraction as `Add(a, Mul(-1, b))`, division as `Mul(a, Pow(b, -1))`,
unary minus as `Mul(-1, a)`). -/
def build : RawAst → SymExpr
  | .rnum q => .num q
  | .rvar s => .sym s
  | .rcall f args => funcE f (builds args)
  | .radd a b => addE [build a, build b]
  | .rsub a b => addE [build a, mulE [.num (-1), build b]]
  | .rmul a b => mulE [build a, build b]
  | .rdiv a b => mulE [build a, powE (build b) (.num (-1))]
  | .rpow a b => powE (build a) (build b)
  | .rneg a => mulE [.num (-1), build a]

/-- Evaluate a list of raw syntax trees. -/
def builds : RawAsts → List SymExpr
  | .nil => []
  | .cons h t => build h :: builds t
end

/-! ## Tokenizer and parser (the `sympify` model) -/

/-- Tokens of a Python arithmetic expression. -/
inductive Tok where
  | tnum (q : ℚ)
  | tid (s : String)
  | tplus
  | tminus
  | tstar
  | tslash
  | tpowOp
  | tlp
  | trp
  | tcomma
  | trel (r : String)
  deriving DecidableEq

/-- Numeric value of a digit run. -/
def digitsVal (ds : List Char) : ℚ :=
  ((ds.foldl (fun n d => n * 10 + (d.toNat - 48)) 0 : Nat) : ℚ)

/-- Value of the fractional digit run of a decimal literal. -/
def fracVal (fs : List Char) : ℚ :=
  digitsVal fs / ((10 : ℚ) ^ fs.length)

/-- Identifier continuation characters (Python identifiers). -/
def idChar (c : Char) : Bool :=
  c.isAlphanum || c = '_'

/-- Tokenize a Python arithmetic/relational expression.  Characters outside
the modelled fragment (`=`, `^`, `|`, ...) make tokenization fail, modelling
a `sympify` that raises.  Fuel `≥ length + 1` suffices since every step
consumes at least one character. -/
def tokenizeF : Nat → List Char → Option (List Tok)
  | 0, _ => none
  | _, [] => some []
  | fuel + 1, c :: rest =>
    if pyWS c then tokenizeF fuel rest
    else if c.isDigit then
      let ds := (c :: rest).takeWhile Char.isDigit
      let r2 := (c :: rest).dropWhile Char.isDigit
      match r2 with
      | '.' :: r3 =>
        let fs := r3.takeWhile Char.isDigit
        let r4 := r3.dropWhile Char.isDigit
        (tokenizeF fuel r4).map fun ts => .tnum (digitsVal ds + fracVal fs) :: ts
      | _ => (tokenizeF fuel r2).map fun ts => .tnum (digitsVal ds) :: ts
    else if c.isAlpha || c = '_' then
      let cs := (c :: rest).takeWhile idChar
      let r2 := (c :: rest).dropWhile idChar
      (tokenizeF fuel r2).map fun ts => .tid (String.mk cs) :: ts
    else if c = '*' then
      match rest with
      | '*' :: r2 => (tokenizeF fuel r2).map fun ts => .tpowOp :: ts
      | _ => (tokenizeF fuel rest).map fun ts => .tstar :: ts
    else if c = '+' then (tokenizeF fuel rest).map fun ts => .tplus :: ts
    else if c = '-' then (tokenizeF fuel rest).map fun ts => .tminus :: ts
    else if c = '/' then (tokenizeF fuel rest).map fun ts => .tslash :: ts
    else if c = '(' then (tokenizeF fuel rest).map fun ts => .tlp :: ts
    else if c = ')' then (tokenizeF fuel rest).map fun ts => .trp :: ts
    else if c = ',' then (tokenizeF fuel rest).map fun ts => .tcomma :: ts
    else if c = '<' then
      match rest with
      | '=' :: r2 => (tokenizeF fuel r2).map fun ts => .trel "<=" :: ts
      | _ => (tokenizeF fuel rest).map fun ts => .trel "<" :: ts
    else if c = '>' then
      match rest with
      | '=' :: r2 => (tokenizeF fuel r2).map fun ts => .trel ">=" :: ts
      | _ => (tokenizeF fuel rest).map fun ts => .trel ">" :: ts
    else none

mutual
/-- Sum/difference level of the recursive-descent parser (Python's
precedence: this is the loosest arithmetic level). -/
def parseArithF : Nat → List Tok → Option (RawAst × List Tok)
  | 0, _ => none
  | fuel + 1, toks => do
    let (t, rest) ← parseTermF fuel toks
    parseArithRest fuel t rest

/-- Left-associative chain of `+`/`-` continuations. -/
def parseArithRest : Nat → RawAst → List Tok → Option (RawAst × List Tok)
  | 0, _, _ => none
  | fuel + 1, acc, toks =>
    match toks with
    | .tplus :: r => do
      let (t, r2) ← parseTermF fuel r
      parseArithRest fuel (.radd acc t) r2
    | .tminus :: r => do
      let (t, r2) ← parseTermF fuel r
      parseArithRest fuel (.rsub acc t) r2
    | _ => some (acc, toks)

/-- Product/quotient level. -/
def parseTermF : Nat → List Tok → Option (RawAst × List Tok)
  | 0, _ => none
  | fuel + 1, toks => do
    let (u, rest) ← parseUnaryF fuel toks
    parseTermRest fuel u rest

/-- Left-associative chain of `*`/`/` continuations. -/
def parseTermRest : Nat → RawAst → List Tok → Option (RawAst × List Tok)
  | 0, _, _ => none
  | fuel + 1, acc, toks =>
    match toks with
    | .tstar :: r => do
      let (u, r2) ← parseUnaryF fuel r
      parseTermRest fuel (.rmul acc u) r2
    | .tslash :: r => do
      let (u, r2) ← parseUnaryF fuel r
      parseTermRest fuel (.rdiv acc u) r2
    | _ => some (acc, toks)

/-- Unary sign level (binds looser than `**`, as in Python: `-x**2` is
`-(x**2)`). -/
def parseUnaryF : Nat → List Tok → Option (RawAst × List Tok)
  | 0, _ => none
  | fuel + 1, toks =>
    match toks with
    | .tminus :: r => do
      let (a, r2) ← parseUnaryF fuel r
      some (.rneg a, r2)
    | .tplus :: r => parseUnaryF fuel r
    | _ => parsePowF fuel toks

/-- Power level: right associative, and the exponent may carry a unary sign
(`2**-3`), as in Python's grammar. -/
def parsePowF : Nat → List Tok → Option (RawAst × List Tok)
  | 0, _ => none
  | fuel + 1, toks => do
    let (a, rest) ← parseAtomF fuel toks
    match rest with
    | .tpowOp :: r => do
      let (b, r2) ← parseUnaryF fuel r
      some (.rpow a b, r2)
    | _ => some (a, rest)

/-- Atoms: numbers, identifiers (a function call when immediately followed
by an open parenthesis, as with `sympify`'s automatic `Function`
treatment), and parenthesized expressions. -/
def parseAtomF : Nat → List Tok → Option (RawAst × List Tok)
  | 0, _ => none
  | fuel + 1, toks =>
    match toks with
    | .tnum q :: r => some (.rnum q, r)
    | .tid s :: .tlp :: .trp :: r => some (.rcall s .nil, r)
    | .tid s :: .tlp :: r => do
      let (args, r2) ← parseArgsF fuel r
      match r2 with
      | .trp :: r3 => some (.rcall s args, r3)
      | _ => none
    | .tid s :: r => some (.rvar s, r)
    | .tlp :: r => do
      let (a, r2) ← parseArithF fuel r
      match r2 with
      | .trp :: r3 => some (a, r3)
      | _ => none
    | _ => none

/-- Comma-separated function-call arguments. -/
def parseArgsF : Nat → List Tok → Option (RawAsts × List Tok)
  | 0, _ => none
  | fuel + 1, toks => do
    let (a, rest) ← parseArithF fuel toks
    match rest with
    | .tcomma :: r => do
      let (rest2, r2) ← parseArgsF fuel r
      some (.cons a rest2, r2)
    | _ => some (.cons a .nil, rest)
end

/-- Model of `sympify` on an operand string: tokenize, parse one arithmetic
expression optionally followed by a single relational operator and a second
arithmetic expression (chained comparisons and `=`/`==` fail, as they do
under Python evaluation), then evaluate through the sympy constructors. -/
def sympify (s : List Char) : Option SymExpr := do
  let toks ← tokenizeF (s.length + 1) s
  let fuel := 4 * toks.length + 8
  let (a, rest) ← parseArithF fuel toks
  match rest with
  | [] => some (build a)
  | .trel r :: r2 => do
    let (b, rest2) ← parseArithF fuel r2
    match rest2 with
    | [] => some (relE r (build a) (build b))
    | _ => none
  | _ => none

/-! ## Normalizer (`_normalize_line`) -/

/-- Strip trailing whitespace only. -/
def stripRight (s : List Char) : List Char :=
  (s.reverse.dropWhile pyWS).reverse

/-- Model of `re.sub(r"\^(\d+)", r"**\1", line)`: a caret followed by at
least one digit becomes a double star with the same digits. -/
def subCaretDigits : Nat → List Char → List Char
  | 0, s => s
  | _ + 1, [] => []
  | fuel + 1, c :: rest =>
    if c = '^' && (rest.headD ' ').isDigit then
      '*' :: '*' :: rest.takeWhile Char.isDigit ++
        subCaretDigits fuel (rest.dropWhile Char.isDigit)
    else c :: subCaretDigits fuel rest

/-- Model of `re.sub(r"\^([a-zA-Z]+)", r"**\1", line)`. -/
def subCaretLetters : Nat → List Char → List Char
  | 0, s => s
  | _ + 1, [] => []
  | fuel + 1, c :: rest =>
    if c = '^' && (rest.headD ' ').isAlpha then
      '*' :: '*' :: rest.takeWhile Char.isAlpha ++
        subCaretLetters fuel (rest.dropWhile Char.isAlpha)
    else c :: subCaretLetters fuel rest

/-- Model of `re.sub(r"(\d)\s*([a-zA-Z\(])", r"\1*\2", line)`: an explicit
multiplication sign is inserted between a digit and a following letter or
open parenthesis, dropping the whitespace in between; scanning resumes
after the inserted group, as `re.sub` does. -/
def subImplicitMul : Nat → List Char → List Char
  | 0, s => s
  | _ + 1, [] => []
  | fuel + 1, c :: rest =>
    if c.isDigit then
      match rest.dropWhile pyWS with
      | d :: r2 =>
        if d.isAlpha || d = '(' then c :: '*' :: d :: subImplicitMul fuel r2
        else c :: subImplicitMul fuel rest
      | [] => c :: subImplicitMul fuel rest
    else c :: subImplicitMul fuel rest

/-- Model of `re.sub(r"\)\s*\(", r")*(", line)`. -/
def subCloseOpen : Nat → List Char → List Char
  | 0, s => s
  | _ + 1, [] => []
  | fuel + 1, c :: rest =>
    if c = ')' then
      match rest.dropWhile pyWS with
      | '(' :: r2 => ')' :: '*' :: '(' :: subCloseOpen fuel r2
      | _ => ')' :: subCloseOpen fuel rest
    else c :: subCloseOpen fuel rest

/-- One step of the absolute-value loop: `re.search(r"\|\s*([^|]+)\s*\|")`
finds the leftmost bar with a nonempty bar-free run up to another bar and
replaces the pair by an `Abs( )` wrapper around the trimmed interior;
`none` when no such pair exists. -/
def absRepl : Nat → List Char → Option (List Char)
  | 0, _ => none
  | _ + 1, [] => none
  | fuel + 1, c :: rest =>
    if c = '|' then
      match splitFirst ['|'] rest with
      | some (inner, post) =>
        if inner ≠ [] then
          some ("Abs(".data ++ pyStrip inner ++ ')' :: post)
        else (absRepl fuel rest).map fun t => '|' :: t
      | none => none
    else (absRepl fuel rest).map fun t => c :: t

/-- The `while "|" in line` loop of `_normalize_line`: replace innermost
bar pairs until none remain or no pair matches. -/
def absLoop : Nat → List Char → List Char
  | 0, s => s
  | fuel + 1, s =>
    if containsSub s ['|'] then
      match absRepl (s.length + 1) s with
      | some t => absLoop fuel t
      | none => s
    else s

/-- Transcription of `_normalize_line`: strip, unicode relation and
superscript replacement, caret-power rewriting, implicit multiplication,
absolute-value bars to `Abs( )`. -/
def normalizeLine (line : List Char) : List Char :=
  let l := pyStrip line
  if l = [] then []
  else
    let l := pyReplace "≤".data "<=".data l
    let l := pyReplace "≥".data ">=".data l
    let l := pyReplace "²".data "**2".data l
    let l := pyReplace "³".data "**3".data l
    let l := subCaretDigits (l.length + 1) l
    let l := subCaretLetters (l.length + 1) l
    let l := subImplicitMul (l.length + 1) l
    let l := subCloseOpen (l.length + 1) l
    absLoop (l.length + 1) l

/-! ## Relation splitter (`_detect_relation`) -/

/-- The fixed operator priority list of `_detect_relation`. -/
def relPriority : List (List Char) :=
  [">=".data, "<=".data, "=".data, ">".data, "<".data]

/-- The scanning loop of `_detect_relation`: the first operator of the
priority list that occurs anywhere in the string wins, and the string is
split at its leftmost occurrence, both sides stripped. -/
def detectRelationAux (normalized : List Char) :
    List (List Char) → List Char × List Char × List Char
  | [] => ([], normalized, [])
  | rel :: rest =>
    match splitFirst rel normalized with
    | some (a, b) => (rel, pyStrip a, pyStrip b)
    | none => detectRelationAux normalized rest

/-- Transcription of `_detect_relation`. -/
def detectRelation (normalized : List Char) :
    List Char × List Char × List Char :=
  detectRelationAux normalized relPriority

/-! ## Variable collection and polynomial degree -/

mutual
/-- Free symbol names of an expression, with duplicates (the set view is
obtained through `sortedDedup`); models `free_symbols`. -/
def varsRaw : SymExpr → List String
  | .num _ => []
  | .sym s => [s]
  | .add ts => varsRawS ts
  | .mul fs => varsRawS fs
  | .pow b e => varsRaw b ++ varsRaw e
  | .rel _ a b => varsRaw a ++ varsRaw b
  | .func _ args => varsRawS args
  | .boolL _ => []

/-- Free symbol names of an expression list. -/
def varsRawS : SymExprs → List String
  | .nil => []
  | .cons h t => varsRaw h ++ varsRawS t
end

/-- Ordered insertion without duplicates. -/
def insStr (x : String) : List String → List String
  | [] => [x]
  | y :: ys =>
    if x = y then y :: ys
    else if compare x y = .lt then x :: y :: ys
    else y :: insStr x ys

/-- Sorted, deduplicated view of a name list (Python `sorted(set(...))`). -/
def sortedDedup (l : List String) : List String :=
  l.foldr insStr []

/-- `free_symbols(lhs) | free_symbols(rhs)` as a sorted name list; also the
equation's `variables` field (`sorted(_collect_variables(lhs) |
_collect_variables(rhs))`). -/
def symsUnion (lhs rhs : SymExpr) : List String :=
  sortedDedup (varsRaw lhs ++ varsRaw rhs)

/-- Does the expression mention any of the generators? -/
def hasGens (e : SymExpr) (gens : List String) : Bool :=
  (varsRaw e).any fun s => gens.contains s

mutual
/-- Model of `expr.as_poly(*gens).degree()`: `some d` when the expression
is a polynomial in the generators `gens`, where `d` is its degree in the
single generator `g` (sympy's `Poly.degree()` is the degree in the first
generator, not the total degree); `none` when the polynomial form fails
(a generator inside a non-polynomial power, function application or
relational). -/
def polyDeg (gens : List String) (g : String) : SymExpr → Option Nat
  | .num _ => some 0
  | .sym s => some (if gens.contains s && s = g then 1 else 0)
  | .add ts => (polyDegs gens g ts).map fun l => l.foldl max 0
  | .mul fs => (polyDegs gens g fs).map fun l => l.foldl (· + ·) 0
  | .pow b e =>
    match e with
    | .num q =>
      if q.den = 1 && 0 ≤ q.num then
        (polyDeg gens g b).map (· * q.num.toNat)
      else if hasGens b gens then none else some 0
    | e => if hasGens b gens || hasGens e gens then none else some 0
  | .rel r a b => if hasGens (.rel r a b) gens then none else some 0
  | .func n args => if hasGens (.func n args) gens then none else some 0
  | .boolL _ => some 0

/-- Degrees of a list of expressions, all of which must be polynomial. -/
def polyDegs (gens : List String) (g : String) : SymExprs → Option (List Nat)
  | .nil => some []
  | .cons h t => do
    let d ← polyDeg gens g h
    let ds ← polyDegs gens g t
    some (d :: ds)
end

/-- `expr.as_poly(*syms).degree()` as called by `_classify_equation`: the
generators are the (sorted) symbol set and the reported degree is the one
in the first generator; an empty generator tuple fails
(`GeneratorsNeeded`). -/
def polyDegFirst (expr : SymExpr) (syms : List String) : Option Nat :=
  match syms with
  | [] => none
  | g :: _ => polyDeg syms g expr

/-! ## Remaining sympy introspection helpers -/

mutual
/-- Model of sympy's `is_number`: numeric literals, and compound
expressions all of whose parts are numeric; an undefined applied function
(such as `f(2)`) is not a number, while `log`/`Abs` of numbers are. -/
def isNumberE : SymExpr → Bool
  | .num _ => true
  | .sym _ => false
  | .add ts => isNumberEs ts
  | .mul fs => isNumberEs fs
  | .pow b e => isNumberE b && isNumberE e
  | .rel .. => false
  | .func n args => (n = "log" || n = "Abs") && isNumberEs args
  | .boolL _ => false

/-- `is_number` for every member of a list. -/
def isNumberEs : SymExprs → Bool
  | .nil => true
  | .cons h t => isNumberE h && isNumberEs t
end

/-- sympy's `could_extract_minus_sign` for the exponents reachable here:
a negative number, or a product with a negative numeric coefficient (a
negated term such as `-x`). -/
def couldExtractMinus : SymExpr → Bool
  | .num q => q < 0
  | .mul (.cons (.num q) _) => q < 0
  | _ => false

/-- Insert one term's numerator under its denominator key, preserving the
first-occurrence order of the denominators (the per-denominator
`defaultdict(list)` of `Add.as_numer_denom`, dicts keeping insertion
order). -/
def insertND (d n : SymExpr) :
    List (SymExpr × List SymExpr) → List (SymExpr × List SymExpr)
  | [] => [(d, [n])]
  | (k, ns) :: t =>
    if k = d then (k, ns ++ [n]) :: t else (k, ns) :: insertND d n t

/-- Group the terms' numerator/denominator pairs by equal denominator. -/
def groupByDenom (pairs : List (SymExpr × SymExpr)) :
    List (SymExpr × List SymExpr) :=
  pairs.foldl (fun acc p => insertND p.2 p.1 acc) []

/-- One group's combined numerator: the lone numerator, or their `Add`. -/
def numerOfGroup : SymExpr × List SymExpr → SymExpr
  | (_, [n]) => n
  | (_, ns) => addE ns

/-- The cross terms of `Add.as_numer_denom` over several denominator
groups: the i-th group's numerator times all the other groups'
denominators, in the source's argument order
(`denoms[:i] + [numers[i]] + denoms[i+1:]`). -/
def crossNumer (left : List SymExpr) :
    List (SymExpr × SymExpr) → List SymExpr
  | [] => []
  | (d, n) :: rest =>
    mulE (left ++ n :: rest.map (fun p => p.1)) :: crossNumer (left ++ [d]) rest

/-- The splitting step of `Pow.as_numer_denom`, given the base, the
base's own numerator/denominator split and the exponent: the split is
refused (numerator `base`, denominator one) when the exponent is not an
integer and the base's denominator is not certainly real — with
assumption-free symbols sympy is only certain for numeric expressions —
or of uncertain sign; a certainly nonpositive (numeric) denominator
negates both parts; a negative or minus-extractable exponent swaps the
two parts and negates the exponent; both parts are then raised through
the evaluating `Pow` constructor. -/
def powND (base : SymExpr) (nd0 : SymExpr × SymExpr) (exp : SymExpr) :
    SymExpr × SymExpr :=
  let intExp := match exp with
    | .num q => q.den = 1
    | _ => false
  let nd1 := if isNumberE nd0.2 || intExp then nd0 else (base, SymExpr.num 1)
  let nd2 := match nd1.2 with
    | .num q =>
      if q ≤ 0 then (mulE [.num (-1), nd1.1], SymExpr.num (-q)) else nd1
    | _ => if intExp then nd1 else (base, SymExpr.num 1)
  let nd3 := if couldExtractMinus exp then (nd2.2, nd2.1) else nd2
  let exp2 := if couldExtractMinus exp then mulE [.num (-1), exp] else exp
  (powE nd3.1 exp2, powE nd3.2 exp2)

mutual
/-- Model of `expr.as_numer_denom()` for the expression fragment the
parser can build.  A `Rational` splits into its integer numerator and
denominator; a `Mul` splits factorwise and multiplies the factors'
numerators and denominators (`Mul.as_numer_denom`); a `Pow` splits its
base and handles the exponent through `powND` (`Pow.as_numer_denom`,
including `as_base_exp`'s reading of a rational base `1/q` as base `q`
with negated exponent); an `Add` combines its terms over a common
denominator: the terms' pairs are grouped by equal denominator, a single
group sums its numerators directly, and several groups multiply each
group's numerator by all the other groups' denominators and multiply the
denominators together (`Add.as_numer_denom`).  The preparatory
`primitive()` content extraction of `Add.as_numer_denom` is not
modelled: it moves a common rational factor between the two returned
parts and cannot change whether the denominator is `1` or mentions a
symbol, the only facts `_classify_equation` reads.  Everything else is
its own numerator over one. -/
def numerDenom : SymExpr → SymExpr × SymExpr
  | .num q => (.num q.num, .num (q.den : ℚ))
  | .mul fs =>
    let nd := numerDenoms fs
    (mulE (nd.map fun p => p.1), mulE (nd.map fun p => p.2))
  | .pow b0 e0 =>
    match b0 with
    | .num q =>
      if q.num = 1 ∧ q.den ≠ 1 then
        powND (.num (q.den : ℚ)) (.num (q.den : ℚ), .num 1)
          (mulE [.num (-1), e0])
      else powND (.num q) (.num q.num, .num (q.den : ℚ)) e0
    | .sym s => powND (.sym s) (.sym s, .num 1) e0
    | b => powND b (numerDenom b) e0
  | .add ts =>
    let groups := groupByDenom (numerDenoms ts)
    match groups with
    | [] => (.num 0, .num 1)
    | [g] => (addE g.2, g.1)
    | gs =>
      let pairs := gs.map fun g => (g.1, numerOfGroup g)
      (addE (crossNumer [] pairs), mulE (gs.map fun g => g.1))
  | e => (e, .num 1)

/-- The numerator/denominator pairs of a term list, in order. -/
def numerDenoms : SymExprs → List (SymExpr × SymExpr)
  | .nil => []
  | .cons h t => numerDenom h :: numerDenoms t
end

/-! ## Serializer (`_expr_to_json`) -/

mutual
/-- Transcription of `_expr_to_json`: numbers become integer constants
when the fractional part is zero and float constants otherwise, symbols
become variables, `Add`/`Mul`/`Pow`/`Relational` map to their node types,
`Abs` becomes an `absolute_value` node, `log` becomes a one-argument
`function_call`, any other applied object a generic `function_call` (this
covers the boolean literals, whose class name becomes the call name).
No branch produces a `quotient` node.  (`Abs` applied to zero arguments
would make the Python function recurse forever; that value is unreachable
and mapped to a bare call node here.) -/
def exprToJson : SymExpr → Json
  | .num q => if q.den = 1 then .constInt q.num else .constRat q
  | .sym s => .jvar s
  | .add ts => .jsum (exprsToJsons ts)
  | .mul fs => .jprod (exprsToJsons fs)
  | .pow b e => .jpow (exprToJson b) (exprToJson e)
  | .rel r a b => .jrel r (exprToJson a) (exprToJson b)
  | .func n args =>
    if n = "Abs" then
      match args with
      | .cons a _ => .jabs (exprToJson a)
      | .nil => .jcall "Abs" .nil
    else if n = "log" then
      match args with
      | .cons a _ => .jcall "log" (.cons (exprToJson a) .nil)
      | .nil => .jcall "log" .nil
    else .jcall n (exprsToJsons args)
  | .boolL b => .jcall (if b then "BooleanTrue" else "BooleanFalse") .nil

/-- Serialize each member of an expression list. -/
def exprsToJsons : SymExprs → Jsons
  | .nil => .nil
  | .cons h t => .cons (exprToJson h) (exprsToJsons t)
end

/-! ## Classifier (`_classify_equation`) -/

/-- Rule 8: `lhs` is a `Pow` with numeric base whose exponent mentions a
symbol. -/
def isExponentialLhs : SymExpr → Bool
  | .pow (.num _) e => !(varsRaw e).isEmpty
  | _ => false

/-- Is a factor a `log` application? -/
def isLogFactor : SymExpr → Bool
  | .func "log" _ => true
  | _ => false

/-- Rule 9: `lhs` is a `log` call or a `Mul` containing a `log` factor. -/
def isLogarithmicLhs : SymExpr → Bool
  | .func "log" _ => true
  | .mul fs => fs.toList.any isLogFactor
  | _ => false

/-- Rule 10: `lhs` is a `Pow` with exponent numerically one half. -/
def isRadicalLhs : SymExpr → Bool
  | .pow _ (.num q) => q = (1 : ℚ) / 2
  | _ => false

/-- Rule 11: `lhs` is a `Pow` with integer exponent. -/
def isPowerLhs : SymExpr → Bool
  | .pow _ (.num q) => q.den = 1
  | _ => false

/-- Rule 13: `lhs` is an `Abs` application. -/
def isAbsLhs : SymExpr → Bool
  | .func "Abs" _ => true
  | _ => false

/-- Rule 15: `lhs` is an applied function named `f`. -/
def isFunctionalLhs : SymExpr → Bool
  | .func "f" _ => true
  | _ => false

/-- Rule 12: the denominator of `expr` mentions one of the symbols and is
not the constant one. -/
def isRationalExpr (expr : SymExpr) (syms : List String) : Bool :=
  let nd := numerDenom expr
  ((varsRaw nd.2).any fun s => syms.contains s) && nd.2 ≠ .num 1

/-- Transcription of `_classify_equation`.  The inequality branch wraps
`lhs - rhs` and the polynomial check in `try/except`, so a `TypeError`
there falls back to the `inequality` tag; the equality branch computes
`expr = lhs - rhs` outside any `try`, so a `TypeError` there propagates
(`Except.error`).  All other structure is the ordered first-match-wins
cascade of the source. -/
def classifyEquation (lhs rhs : SymExpr) (relation : List Char)
    (vars : List String) : Except Unit String :=
  if relation ≠ ['='] then
    .ok (match symSub lhs rhs with
      | none => "inequality"
      | some expr =>
        if vars ≠ [] then
          match polyDegFirst expr (symsUnion lhs rhs) with
          | some d => if d ≤ 1 then "inequality_linear" else "inequality_polynomial"
          | none => "inequality"
        else "inequality")
  else if vars = [] then .ok "constant"
  else
    let syms := symsUnion lhs rhs
    match symSub lhs rhs with
    | none => .error ()
    | some expr =>
      let poly := if syms ≠ [] then polyDegFirst expr syms else none
      .ok (match poly with
        | some d =>
          if d ≤ 1 then "linear" else if d = 2 then "quadratic" else "polynomial"
        | none =>
          if isExponentialLhs lhs then "exponential"
          else if isLogarithmicLhs lhs then "logarithmic"
          else if isRadicalLhs lhs then "radical"
          else if isPowerLhs lhs then "power"
          else if isRationalExpr expr syms then "rational"
          else if isAbsLhs lhs then "absolute"
          else if 2 ≤ syms.length &&
              (match polyDegFirst expr syms with
               | some d => d ≤ 1
               | none => false) then "parametric"
          else if isFunctionalLhs lhs then "functional"
          else if !isNumberE lhs && !isNumberE rhs then "identity"
          else "other")

/-! ## Equation records and the per-line parser -/

/-- The per-line output record (field `vars` is the schema's `variables`
field; `variables` is reserved in Lean).  Piecewise lines carry their
branches inside `rhs` as the Python code does; there is no separate
branches field on the record. -/
structure Equation where
  id : Nat
  raw : String
  vars : List String
  equation_type : String
  relation : String
  lhs : Json
  rhs : Json
  deriving DecidableEq

/-- Consume one literal character out of a candidate set. -/
def eatLit (cset : List Char) (s : List Char) : Option (List Char) :=
  match s with
  | c :: r => if cset.contains c then some r else none
  | [] => none

/-- Skip whitespace. -/
def eatWS (s : List Char) : List Char :=
  s.dropWhile pyWS

/-- Model of the anchored, case-insensitive piecewise regex
`f\s*\(\s*x\s*\)\s*=\s*\{\s*(.+)\s*\}\s*$` applied with `re.match` to the
stripped line; returns the first capture group (the brace content,
including incidental surrounding whitespace, which the caller strips). -/
def matchPiecewise (line : List Char) : Option (List Char) := do
  let t := pyStrip line
  let r ← eatLit ['f', 'F'] t
  let r ← eatLit ['('] (eatWS r)
  let r ← eatLit ['x', 'X'] (eatWS r)
  let r ← eatLit [')'] (eatWS r)
  let r ← eatLit ['='] (eatWS r)
  let r ← eatLit ['\x7b'] (eatWS r)
  let body := stripRight r
  match body.getLast? with
  | some '\x7d' =>
    let content := body.dropLast
    if content ≠ [] then some content else none
  | _ => none

/-- Per-branch processing of `_parse_piecewise`: strip the part, skip it
when empty, skip it when it contains no comma, otherwise split at the last
comma, normalize both halves, and sympify them — falling back to constant
nodes holding the raw (normalized) sub-strings when either fails.  The
result pairs the serialized condition with the serialized expression. -/
def branchOf (part : List Char) : Option (Json × Json) :=
  let p := pyStrip part
  if p = [] then none
  else
    match rfindChar ',' p with
    | none => none
    | some idx =>
      let exprStr := normalizeLine (p.take idx)
      let condStr := normalizeLine (p.drop (idx + 1))
      match sympify exprStr, sympify condStr with
      | some e, some c => some (exprToJson c, exprToJson e)
      | _, _ =>
        some (Json.constStr (String.mk condStr), Json.constStr (String.mk exprStr))

/-- The branch loop of `_parse_piecewise` over the `;`-separated parts. -/
def processBranches (parts : List (List Char)) : List (Json × Json) :=
  parts.filterMap branchOf

/-- Branches as a `JBranches`. -/
def jbOfList : List (Json × Json) → JBranches
  | [] => .nil
  | (c, e) :: t => .cons c e (jbOfList t)

/-- Transcription of `_parse_piecewise`: grammar match, branch loop,
`none` when no branch survives, otherwise the fixed piecewise record
(id zero, set by the caller). -/
def parsePiecewise (line : List Char) : Option Equation := do
  let content ← matchPiecewise line
  let branches := processBranches (splitOnChar ';' (pyStrip content))
  if branches = [] then none
  else
    some {
      id := 0
      raw := String.mk (pyStrip line)
      vars := ["x"]
      equation_type := "piecewise"
      relation := "="
      lhs := .jfuncDef "f" "x"
      rhs := .jpiecewise (jbOfList branches) }

/-- Transcription of `parse_equation`: strip (empty lines give no record),
try the piecewise grammar, otherwise normalize, split at the detected
relation (missing relation or an empty side gives no record), sympify both
sides (failure gives no record), then classify and serialize.  A
`TypeError` escaping `_classify_equation` propagates as `Except.error`. -/
def parseEquation (line : String) (equationId : Nat) :
    Except Unit (Option Equation) :=
  let raw := pyStrip line.data
  if raw = [] then .ok none
  else
    match parsePiecewise raw with
    | some pw => .ok (some { pw with id := equationId })
    | none =>
      let normalized := normalizeLine raw
      let (relation, lhsStr, rhsStr) := detectRelation normalized
      if relation = [] || lhsStr = [] || rhsStr = [] then .ok none
      else
        match sympify lhsStr, sympify rhsStr with
        | some lhs, some rhs =>
          let vs := symsUnion lhs rhs
          match classifyEquation lhs rhs relation vs with
          | .error e => .error e
          | .ok ty =>
            .ok (some {
              id := equationId
              raw := String.mk raw
              vars := vs
              equation_type := ty
              relation := String.mk relation
              lhs := exprToJson lhs
              rhs := exprToJson rhs })
        | _, _ => .ok none

/-- The batch result (`source_file` is I/O metadata and out of scope). -/
structure ParseResult where
  count : Nat
  equations : List Equation
  deriving DecidableEq

/-- The `for i, line in enumerate(f, start=1)` loop of
`parse_equations_file`: parse each line with its 1-based index, append the
survivors in order, and propagate an escaped exception (which aborts the
whole batch in Python). -/
def parseLinesFrom : Nat → List String → Except Unit (List Equation)
  | _, [] => .ok []
  | i, l :: rest => do
    let parsed ← parseEquation l i
    let restEqs ← parseLinesFrom (i + 1) rest
    match parsed with
    | some eq => .ok (eq :: restEqs)
    | none => .ok restEqs

/-- Transcription of `parse_equations_file` restricted to its core (file
reading/writing and the extension check are I/O concerns): the surviving
records in input order together with their count. -/
def parseEquationsFile (lines : List String) : Except Unit ParseResult := do
  let eqs ← parseLinesFrom 1 lines
  .ok { count := eqs.length, equations := eqs }

/-! ## The canonical-form invariant

sympy maintains, through its evaluating constructors, that `Add` nodes
never directly contain `Add` nodes and `Mul` nodes never directly contain
`Mul` nodes.  The predicate `canonB` captures the part of the canonical
form needed to prove that invariant for every expression the `sympify`
model can produce: flattened same-kind nodes, at least two arguments, at
most one numeric factor and only at the head of a `Mul`, and no `Mul` that
is exactly a number times a lone `Add` (such products are distributed away,
sympy's `2*(1+a) = 2 + 2*a` rule, which is exactly what keeps collected
like-term keys from being `Add`s). -/

/-- Length of an expression list. -/
def SymExprs.length : SymExprs → Nat
  | .nil => 0
  | .cons _ t => t.length + 1

/-- No member is a numeric literal. -/
def SymExprs.allNotNum : SymExprs → Bool
  | .nil => true
  | .cons h t => !h.isNum && t.allNotNum

/-- Is this factor list exactly a number followed by a lone `Add`?  (The
shape `Mul(Number, Add)` that sympy's distribution rule eliminates.) -/
def badPair : SymExprs → Bool
  | .cons (.num _) (.cons (.add _) .nil) => true
  | _ => false

/-- Numbers may appear only as the head factor of a `Mul`. -/
def numFreeTail : SymExprs → Bool
  | .nil => true
  | .cons _ t => t.allNotNum

mutual
/-- Canonical form of a sympy expression (see the section comment). -/
def canonB : SymExpr → Bool
  | .num _ => true
  | .sym _ => true
  | .add ts => decide (2 ≤ ts.length) && canonAddArgs ts
  | .mul fs =>
    decide (2 ≤ fs.length) && !badPair fs && numFreeTail fs && canonMulArgs fs
  | .pow b e => canonB b && canonB e
  | .rel _ a b => canonB a && canonB b
  | .func _ args => canonBs args
  | .boolL _ => true

/-- Arguments of a canonical `Add`: none is itself an `Add`, all canonical. -/
def canonAddArgs : SymExprs → Bool
  | .nil => true
  | .cons h t => !h.isAdd && canonB h && canonAddArgs t

/-- Arguments of a canonical `Mul`: none is itself a `Mul`, all canonical. -/
def canonMulArgs : SymExprs → Bool
  | .nil => true
  | .cons h t => !h.isMul && canonB h && canonMulArgs t

/-- All members canonical. -/
def canonBs : SymExprs → Bool
  | .nil => true
  | .cons h t => canonB h && canonBs t
end

/-- Like-term keys extracted by `splitCoeff`: canonical, not an `Add`, not
a number, and number-free throughout when a `Mul`. -/
def keyOK (k : SymExpr) : Bool :=
  canonB k && !k.isAdd && !k.isNum &&
    (match k with
     | .mul fs => fs.allNotNum
     | _ => true)

theorem SymExprs.toList_length : (l : SymExprs) → l.toList.length = l.length
  | .nil => rfl
  | .cons h t => by simp [SymExprs.toList, SymExprs.length, toList_length t]

theorem SymExprs.allNotNum_iff :
    (l : SymExprs) → l.allNotNum = l.toList.all (fun f => !f.isNum)
  | .nil => rfl
  | .cons h t => by simp [SymExprs.allNotNum, SymExprs.toList, allNotNum_iff t]

theorem canonAddArgs_iff :
    (l : SymExprs) → canonAddArgs l = l.toList.all (fun t => !t.isAdd && canonB t)
  | .nil => rfl
  | .cons h t => by
    simp [canonAddArgs, SymExprs.toList, canonAddArgs_iff t, Bool.and_assoc]

theorem canonMulArgs_iff :
    (l : SymExprs) → canonMulArgs l = l.toList.all (fun t => !t.isMul && canonB t)
  | .nil => rfl
  | .cons h t => by
    simp [canonMulArgs, SymExprs.toList, canonMulArgs_iff t, Bool.and_assoc]

theorem canonBs_iff : (l : SymExprs) → canonBs l = l.toList.all canonB
  | .nil => rfl
  | .cons h t => by simp [canonBs, SymExprs.toList, canonBs_iff t]

theorem SymExprs.length_ofList (l : List SymExpr) :
    (SymExprs.ofList l).length = l.length := by
  rw [← SymExprs.toList_length, SymExprs.toList_ofList]

/-- List-level view of `badPair`. -/
def badPairL : List SymExpr → Bool
  | [.num _, .add _] => true
  | _ => false

theorem badPair_ofList (l : List SymExpr) :
    badPair (SymExprs.ofList l) = badPairL l := by
  match l with
  | [] => rfl
  | [a] => cases a <;> rfl
  | [a, b] => cases a <;> cases b <;> rfl
  | a :: b :: c :: t => cases a <;> cases b <;> rfl

theorem numFreeTail_ofList (l : List SymExpr) :
    numFreeTail (SymExprs.ofList l) = l.tail.all (fun f => !f.isNum) := by
  match l with
  | [] => rfl
  | a :: t =>
    simp [SymExprs.ofList, numFreeTail, SymExprs.allNotNum_iff,
      SymExprs.toList_ofList]

/-- Canonical `Add` built from an explicit argument list. -/
theorem canon_add_ofList {l : List SymExpr} (hlen : 2 ≤ l.length)
    (h : ∀ t ∈ l, t.isAdd = false ∧ canonB t = true) :
    canonB (.add (.ofList l)) = true := by
  simp only [canonB, canonAddArgs_iff, SymExprs.toList_ofList,
    SymExprs.length_ofList, Bool.and_eq_true, decide_eq_true_eq,
    List.all_eq_true]
  exact ⟨hlen, fun t ht => by simp [(h t ht).1, (h t ht).2]⟩

/-- Canonical `Mul` built from an explicit factor list. -/
theorem canon_mul_ofList {l : List SymExpr} (hlen : 2 ≤ l.length)
    (h : ∀ f ∈ l, f.isMul = false ∧ canonB f = true)
    (hbad : badPairL l = false)
    (htail : l.tail.all (fun f => !f.isNum) = true) :
    canonB (.mul (.ofList l)) = true := by
  simp only [canonB, canonMulArgs_iff, SymExprs.toList_ofList,
    SymExprs.length_ofList, badPair_ofList, numFreeTail_ofList,
    Bool.and_eq_true, decide_eq_true_eq, List.all_eq_true, hbad,
    Bool.not_false, Bool.true_and]
  refine ⟨⟨⟨hlen, trivial⟩, ?_⟩, fun t ht => by simp [(h t ht).1, (h t ht).2]⟩
  simpa [List.all_eq_true] using htail

/-- Members of an insertion-sorted list are members of the original. -/
theorem mem_insertSorted {x a : SymExpr} :
    ∀ {l : List SymExpr}, a ∈ insertSorted x l → a = x ∨ a ∈ l := by
  intro l
  induction l with
  | nil => intro h; simp [insertSorted] at h; exact Or.inl h
  | cons y ys ih =>
    intro h
    simp only [insertSorted] at h
    by_cases hle : keyLe x y
    · simp [hle] at h
      rcases h with h | h | h
      · exact Or.inl h
      · exact Or.inr (by simp [h])
      · exact Or.inr (by simp [h])
    · simp [hle] at h
      rcases h with h | h
      · exact Or.inr (by simp [h])
      · rcases ih h with h | h
        · exact Or.inl h
        · exact Or.inr (by simp [h])

theorem mem_sortByKey {a : SymExpr} :
    ∀ {l : List SymExpr}, a ∈ sortByKey l → a ∈ l := by
  intro l
  induction l with
  | nil => intro h; simp [sortByKey] at h
  | cons y ys ih =>
    intro h
    simp only [sortByKey] at h
    rcases mem_insertSorted h with h | h
    · simp [h]
    · exact List.mem_cons_of_mem _ (ih h)

theorem length_insertSorted (x : SymExpr) :
    ∀ (l : List SymExpr), (insertSorted x l).length = l.length + 1 := by
  intro l
  induction l with
  | nil => rfl
  | cons y ys ih =>
    simp only [insertSorted]
    by_cases hle : keyLe x y
    · simp [hle]
    · simp [hle, ih]

theorem length_sortByKey :
    ∀ (l : List SymExpr), (sortByKey l).length = l.length := by
  intro l
  induction l with
  | nil => rfl
  | cons y ys ih => simp [sortByKey, length_insertSorted, ih]

/-- Keys in the association list after an insertion: the new key or an old
one. -/
theorem mem_insertTerm {p : SymExpr × ℚ} :
    ∀ {acc : List (SymExpr × ℚ)} {key : SymExpr} {c : ℚ},
      p ∈ insertTerm acc key c → p.1 = key ∨ ∃ q, (p.1, q) ∈ acc := by
  intro acc
  induction acc with
  | nil =>
    intro key c h
    simp [insertTerm] at h
    exact Or.inl (by simp [h])
  | cons kq rest ih =>
    obtain ⟨k0, q0⟩ := kq
    intro key c h
    simp only [insertTerm] at h
    by_cases he : k0 = key
    · simp only [he, if_true] at h
      rcases List.mem_cons.mp h with h | h
      · exact Or.inl (by simp [h, ← he])
      · exact Or.inr ⟨p.2, List.mem_cons_of_mem _ (by simpa using h)⟩
    · simp only [he, if_false] at h
      rcases List.mem_cons.mp h with h | h
      · exact Or.inr ⟨q0, by simp [h]⟩
      · rcases ih h with h2 | ⟨q, hq⟩
        · exact Or.inl h2
        · exact Or.inr ⟨q, List.mem_cons_of_mem _ hq⟩

theorem allNotNum_of_head_tail {h : SymExpr} {t : SymExprs}
    (hh : h.isNum = false) (ht : t.allNotNum = true) :
    (SymExprs.cons h t).allNotNum = true := by
  simp [SymExprs.allNotNum, hh, ht]

theorem badPairL_of_head_not_num {l : List SymExpr}
    (hh : ∀ f, l.head? = some f → f.isNum = false) : badPairL l = false := by
  match l with
  | [] => rfl
  | [a] => cases a <;> rfl
  | a :: b :: t =>
    have ha := hh a rfl
    cases a <;> simp [SymExpr.isNum] at ha ⊢ <;> cases b <;> cases t <;>
      simp [badPairL]

/-- Keys extracted by `splitCoeff` from canonical non-`Add` non-number
terms are well formed. -/
theorem splitCoeff_keyOK {e : SymExpr} (hc : canonB e = true)
    (hna : e.isAdd = false) (hnn : e.isNum = false) :
    keyOK (splitCoeff e).2 = true := by
  cases e with
  | num q => simp [SymExpr.isNum] at hnn
  | add ts => simp [SymExpr.isAdd] at hna
  | sym s => simp [splitCoeff, keyOK, SymExpr.isAdd, SymExpr.isNum, canonB]
  | pow b e =>
    simp only [splitCoeff, keyOK, SymExpr.isAdd, SymExpr.isNum]
    simp [hc]
  | rel r a b =>
    simp only [splitCoeff, keyOK, SymExpr.isAdd, SymExpr.isNum]
    simp [hc]
  | func n args =>
    simp only [splitCoeff, keyOK, SymExpr.isAdd, SymExpr.isNum]
    simp [hc]
  | boolL b =>
    simp [splitCoeff, keyOK, SymExpr.isAdd, SymExpr.isNum, canonB]
  | mul fs =>
    have hc0 := hc
    simp only [canonB, Bool.and_eq_true, decide_eq_true_eq] at hc
    obtain ⟨⟨⟨hlen, hbad⟩, htail⟩, hargs⟩ := hc
    cases fs with
    | nil => simp [SymExprs.length] at hlen
    | cons h t =>
      simp only [numFreeTail] at htail
      simp only [canonMulArgs, Bool.and_eq_true] at hargs
      obtain ⟨⟨hhm, hhc⟩, htc⟩ := hargs
      cases h with
      | num c =>
        -- coefficient head: the key is the remainder of the factor list
        cases t with
        | nil => simp [SymExprs.length] at hlen
        | cons r t2 =>
          cases t2 with
          | nil =>
            -- a lone remaining factor: the key is that factor
            have hradd : r.isAdd = false := by
              cases r <;> simp [badPair, SymExpr.isAdd] at hbad ⊢
            simp only [canonMulArgs, Bool.and_eq_true] at htc
            simp only [SymExprs.allNotNum, Bool.and_eq_true] at htail
            simp only [splitCoeff, SymExprs.toList, keyOK, Bool.and_eq_true]
            refine ⟨⟨⟨htc.1.2, ?_⟩, by simp [htail.1]⟩, ?_⟩
            · simp [hradd]
            · cases r <;> simp_all [SymExpr.isMul]
          | cons r2 t3 =>
            -- two or more remaining factors: the key is their product
            rw [canonMulArgs_iff] at htc
            rw [SymExprs.allNotNum_iff] at htail
            simp only [SymExprs.toList, List.all_eq_true, Bool.and_eq_true]
              at htc htail
            simp only [splitCoeff, SymExprs.toList, keyOK]
            have hcanon :
                canonB (.mul (.ofList (r :: r2 :: t3.toList))) = true := by
              refine canon_mul_ofList (by simp)
                (fun f hf => ⟨by simpa using (htc f hf).1, (htc f hf).2⟩) ?_ ?_
              · refine badPairL_of_head_not_num fun f hf => ?_
                simp only [List.head?] at hf
                cases hf
                simpa using htail r (by simp)
              · simp only [List.tail_cons, List.all_eq_true]
                intro f hf
                exact htail f (List.mem_cons_of_mem _ hf)
            simp only [Bool.and_eq_true]
            refine ⟨⟨⟨hcanon, by simp [SymExpr.isAdd]⟩,
              by simp [SymExpr.isNum]⟩, ?_⟩
            rw [SymExprs.allNotNum_iff, SymExprs.toList_ofList]
            simp only [List.all_eq_true]
            exact fun f hf => htail f hf
      | mul gs => simp [SymExpr.isMul] at hhm
      | sym s =>
        simp only [splitCoeff, SymExprs.toList, keyOK, Bool.and_eq_true]
        refine ⟨⟨⟨hc0, by simp [SymExpr.isAdd]⟩, by simp [SymExpr.isNum]⟩, ?_⟩
        exact allNotNum_of_head_tail (by simp [SymExpr.isNum]) htail
      | add ts =>
        simp only [splitCoeff, SymExprs.toList, keyOK, Bool.and_eq_true]
        refine ⟨⟨⟨hc0, by simp [SymExpr.isAdd]⟩, by simp [SymExpr.isNum]⟩, ?_⟩
        exact allNotNum_of_head_tail (by simp [SymExpr.isNum]) htail
      | pow b e =>
        simp only [splitCoeff, SymExprs.toList, keyOK, Bool.and_eq_true]
        refine ⟨⟨⟨hc0, by simp [SymExpr.isAdd]⟩, by simp [SymExpr.isNum]⟩, ?_⟩
        exact allNotNum_of_head_tail (by simp [SymExpr.isNum]) htail
      | rel r a b =>
        simp only [splitCoeff, SymExprs.toList, keyOK, Bool.and_eq_true]
        refine ⟨⟨⟨hc0, by simp [SymExpr.isAdd]⟩, by simp [SymExpr.isNum]⟩, ?_⟩
        exact allNotNum_of_head_tail (by simp [SymExpr.isNum]) htail
      | func n args =>
        simp only [splitCoeff, SymExprs.toList, keyOK, Bool.and_eq_true]
        refine ⟨⟨⟨hc0, by simp [SymExpr.isAdd]⟩, by simp [SymExpr.isNum]⟩, ?_⟩
        exact allNotNum_of_head_tail (by simp [SymExpr.isNum]) htail
      | boolL b =>
        simp only [splitCoeff, SymExprs.toList, keyOK, Bool.and_eq_true]
        refine ⟨⟨⟨hc0, by simp [SymExpr.isAdd]⟩, by simp [SymExpr.isNum]⟩, ?_⟩
        exact allNotNum_of_head_tail (by simp [SymExpr.isNum]) htail

/-- Rebuilt like-terms are canonical, not `Add`s and not numbers. -/
theorem buildTerm_props {c : ℚ} {k : SymExpr} (hk : keyOK k = true) :
    canonB (buildTerm c k) = true ∧ (buildTerm c k).isAdd = false ∧
      (buildTerm c k).isNum = false := by
  simp only [keyOK, Bool.and_eq_true] at hk
  obtain ⟨⟨⟨hc, hna⟩, hnn⟩, hmul⟩ := hk
  unfold buildTerm
  by_cases h1 : c = 1
  · simpa [h1] using ⟨hc, by simpa using hna, by simpa using hnn⟩
  · simp only [h1, if_false]
    cases k with
    | num q => simp [SymExpr.isNum] at hnn
    | add ts => simp [SymExpr.isAdd] at hna
    | mul fs =>
      have hc0 := hc
      simp only [canonB, Bool.and_eq_true, decide_eq_true_eq] at hc
      obtain ⟨⟨⟨hlen, hbad⟩, htail⟩, hargs⟩ := hc
      refine ⟨?_, by simp [SymExpr.isAdd], by simp [SymExpr.isNum]⟩
      simp only [canonB, Bool.and_eq_true, decide_eq_true_eq]
      refine ⟨⟨⟨by simp [SymExprs.length]; omega, ?_⟩, ?_⟩, ?_⟩
      · -- not a number-add pair: the list has at least three members
        cases fs with
        | nil => simp [SymExprs.length] at hlen
        | cons a t =>
          cases t with
          | nil => simp [SymExprs.length] at hlen
          | cons a2 t2 => cases a <;> simp [badPair]
      · simpa [numFreeTail] using hmul
      · simp [canonMulArgs, SymExpr.isMul, canonB, hargs]
    | sym s =>
      refine ⟨?_, by simp [SymExpr.isAdd], by simp [SymExpr.isNum]⟩
      refine canon_mul_ofList (by simp) ?_ (by simp [badPairL])
        (by simp [SymExpr.isNum])
      intro f hf
      rcases List.mem_cons.mp hf with h | h
      · subst h; exact ⟨rfl, rfl⟩
      · simp only [List.mem_singleton] at h
        subst h
        exact ⟨rfl, hc⟩
    | pow b e =>
      refine ⟨?_, by simp [SymExpr.isAdd], by simp [SymExpr.isNum]⟩
      refine canon_mul_ofList (by simp) ?_ (by simp [badPairL])
        (by simp [SymExpr.isNum])
      intro f hf
      rcases List.mem_cons.mp hf with h | h
      · subst h; exact ⟨rfl, rfl⟩
      · simp only [List.mem_singleton] at h
        subst h
        exact ⟨rfl, hc⟩
    | rel r a b =>
      refine ⟨?_, by simp [SymExpr.isAdd], by simp [SymExpr.isNum]⟩
      refine canon_mul_ofList (by simp) ?_ (by simp [badPairL])
        (by simp [SymExpr.isNum])
      intro f hf
      rcases List.mem_cons.mp hf with h | h
      · subst h; exact ⟨rfl, rfl⟩
      · simp only [List.mem_singleton] at h
        subst h
        exact ⟨rfl, hc⟩
    | func n args =>
      refine ⟨?_, by simp [SymExpr.isAdd], by simp [SymExpr.isNum]⟩
      refine canon_mul_ofList (by simp) ?_ (by simp [badPairL])
        (by simp [SymExpr.isNum])
      intro f hf
      rcases List.mem_cons.mp hf with h | h
      · subst h; exact ⟨rfl, rfl⟩
      · simp only [List.mem_singleton] at h
        subst h
        exact ⟨rfl, hc⟩
    | boolL b =>
      refine ⟨?_, by simp [SymExpr.isAdd], by simp [SymExpr.isNum]⟩
      refine canon_mul_ofList (by simp) ?_ (by simp [badPairL])
        (by simp [SymExpr.isNum])
      intro f hf
      rcases List.mem_cons.mp hf with h | h
      · subst h; exact ⟨rfl, rfl⟩
      · simp only [List.mem_singleton] at h
        subst h
        exact ⟨rfl, hc⟩

/-- Every key in the like-term fold is well formed. -/
theorem pairs_keyOK :
    ∀ (l : List SymExpr) (acc : List (SymExpr × ℚ)),
      (∀ p ∈ acc, keyOK p.1 = true) →
      (∀ t ∈ l, canonB t = true ∧ t.isAdd = false ∧ t.isNum = false) →
      ∀ p ∈ l.foldl (fun acc t =>
          insertTerm acc (splitCoeff t).2 (splitCoeff t).1) acc,
        keyOK p.1 = true := by
  intro l
  induction l with
  | nil => intro acc hacc _ p hp; exact hacc p hp
  | cons t ts ih =>
    intro acc hacc hl p hp
    simp only [List.foldl] at hp
    refine ih _ ?_ (fun x hx => hl x (by simp [hx])) p hp
    intro q hq
    rcases mem_insertTerm hq with h | ⟨q2, hq2⟩
    · rw [h]
      exact splitCoeff_keyOK (hl t (by simp)).1 (hl t (by simp)).2.1
        (hl t (by simp)).2.2
    · exact hacc (q.1, q2) hq2

/-- The final collapse of `Add.flatten` yields a canonical expression when
every member of the argument list is canonical and not an `Add`. -/
theorem addAssemble_canon {full : List SymExpr}
    (h : ∀ x ∈ full, canonB x = true ∧ x.isAdd = false) :
    canonB (addAssemble full) = true := by
  match full with
  | [] => rfl
  | [t] => exact (h t (by simp)).1
  | t1 :: t2 :: ts =>
    exact canon_add_ofList (by simp only [List.length_cons]; omega)
      (fun t ht => ⟨(h t ht).2, (h t ht).1⟩)

/-- `addE` yields a canonical expression from canonical arguments. -/
theorem addE_canon {args : List SymExpr}
    (hargs : ∀ a ∈ args, canonB a = true) : canonB (addE args) = true := by
  unfold addE
  apply addAssemble_canon
  intro x hx
  -- members of the assembled list: the folded coefficient or a rebuilt term
  have hexp : ∀ y ∈ (args.flatMap fun a =>
      match a with
      | .add ts => ts.toList
      | x => [x]), canonB y = true ∧ y.isAdd = false := by
    intro y hy
    rw [List.mem_flatMap] at hy
    obtain ⟨a, ha, hya⟩ := hy
    have hca := hargs a ha
    cases a with
    | add ts =>
      simp only at hya
      simp only [canonB, Bool.and_eq_true] at hca
      have := canonAddArgs_iff ts ▸ hca.2
      simp only [List.all_eq_true, Bool.and_eq_true] at this
      obtain ⟨h1, h2⟩ := this y hya
      exact ⟨h2, by simpa using h1⟩
    | num q => simp at hya; subst hya; exact ⟨hca, rfl⟩
    | sym s => simp at hya; subst hya; exact ⟨hca, rfl⟩
    | mul fs => simp at hya; subst hya; exact ⟨hca, rfl⟩
    | pow b e => simp at hya; subst hya; exact ⟨hca, rfl⟩
    | rel r a b => simp at hya; subst hya; exact ⟨hca, rfl⟩
    | func n as2 => simp at hya; subst hya; exact ⟨hca, rfl⟩
    | boolL b => simp at hya; subst hya; exact ⟨hca, rfl⟩
  have hterms : ∀ y ∈ ((((args.flatMap fun a =>
        match a with
        | .add ts => ts.toList
        | x => [x]).filter fun a => !a.isNum).foldl (fun acc t =>
          insertTerm acc (splitCoeff t).2 (splitCoeff t).1) []).filter
            fun p => p.2 ≠ 0).map fun p => buildTerm p.2 p.1,
      canonB y = true ∧ y.isAdd = false := by
    intro y hy
    rw [List.mem_map] at hy
    obtain ⟨p, hp, hyp⟩ := hy
    rw [List.mem_filter] at hp
    have hkey : keyOK p.1 = true := by
      refine pairs_keyOK _ [] (by simp) ?_ p hp.1
      intro t ht
      rw [List.mem_filter] at ht
      obtain ⟨ht1, ht2⟩ := ht
      exact ⟨(hexp t ht1).1, (hexp t ht1).2, by simpa using ht2⟩
    obtain ⟨h1, h2, _⟩ := buildTerm_props (c := p.2) hkey
    exact hyp ▸ ⟨h1, h2⟩
  by_cases hco : (args.flatMap fun a =>
      match a with
      | .add ts => ts.toList
      | x => [x]).foldl (fun s a =>
        match a with
        | .num q => s + q
        | _ => s) 0 = 0
  · simp only [hco, if_true] at hx
    have := mem_sortByKey hx
    exact hterms _ this
  · simp only [hco, if_false] at hx
    rcases List.mem_cons.mp hx with h | h
    · subst h; exact ⟨rfl, rfl⟩
    · exact hterms _ (mem_sortByKey h)

theorem canonBs_ofList (l : List SymExpr) :
    canonBs (.ofList l) = l.all canonB := by
  rw [canonBs_iff, SymExprs.toList_ofList]

theorem badPairL_false_of_long {x : SymExpr} {l : List SymExpr}
    (h : 2 ≤ l.length) : badPairL (x :: l) = false := by
  match l with
  | [] => simp at h
  | [a] => simp at h
  | a :: b :: t => cases x <;> cases a <;> rfl

/-- `mkMulCoeff` yields a canonical expression from canonical,
non-`Mul`, non-number factors, none of which is a lone `Add`. -/
theorem mkMulCoeff_canon {c : ℚ} {fs : List SymExpr}
    (h : ∀ f ∈ fs, canonB f = true ∧ f.isMul = false ∧ f.isNum = false)
    (hs : ∀ f, fs = [f] → f.isAdd = false) :
    canonB (mkMulCoeff c fs) = true := by
  unfold mkMulCoeff
  by_cases h0 : c = 0
  · simp [h0, canonB]
  · simp only [h0, if_false]
    by_cases h1 : c = 1
    · simp only [h1, if_true]
      match fs, h, hs with
      | [], _, _ => rfl
      | [f], h, _ => exact (h f (by simp)).1
      | f1 :: f2 :: t, h, _ =>
        refine canon_mul_ofList (by simp only [List.length_cons]; omega)
          (fun f hf => ⟨(h f hf).2.1, (h f hf).1⟩) ?_ ?_
        · exact badPairL_of_head_not_num fun f hf => by
            simp only [List.head?] at hf
            cases hf
            exact (h f1 (by simp)).2.2
        · simp only [List.tail_cons, List.all_eq_true]
          intro f hf
          simp [(h f (List.mem_cons_of_mem _ hf)).2.2]
    · simp only [h1, if_false]
      match fs, h, hs with
      | [], _, _ => rfl
      | f :: t, h, hs =>
        refine canon_mul_ofList (by simp only [List.length_cons]; omega)
          ?_ ?_ ?_
        · intro g hg
          rcases List.mem_cons.mp hg with hg | hg
          · subst hg; exact ⟨rfl, rfl⟩
          · exact ⟨(h g hg).2.1, (h g hg).1⟩
        · match t, hs with
          | [], hs =>
            have hfa := hs f rfl
            cases f <;> first
              | rfl
              | simp [SymExpr.isAdd] at hfa
          | a :: t2, _ =>
            exact badPairL_false_of_long (by simp only [List.length_cons]; omega)
        · simp only [List.tail_cons, List.all_eq_true]
          intro g hg
          simp [(h g hg).2.2]

/-- `scalarMul` preserves canonical form on non-`Add` inputs (its inputs
are the members of a flat `Add`). -/
theorem scalarMul_canon {c : ℚ} {t : SymExpr} (hc : canonB t = true)
    (hna : t.isAdd = false) : canonB (scalarMul c t) = true := by
  cases t with
  | num q => simp [scalarMul, canonB]
  | add ts => simp [SymExpr.isAdd] at hna
  | mul fs =>
    have hc0 := hc
    simp only [canonB, Bool.and_eq_true, decide_eq_true_eq] at hc
    obtain ⟨⟨⟨hlen, hbad⟩, htail⟩, hargs⟩ := hc
    cases fs with
    | nil => simp [SymExprs.length] at hlen
    | cons h t2 =>
      simp only [numFreeTail] at htail
      simp only [canonMulArgs, Bool.and_eq_true] at hargs
      obtain ⟨⟨hhm, hhc⟩, htc⟩ := hargs
      rw [canonMulArgs_iff] at htc
      rw [SymExprs.allNotNum_iff] at htail
      simp only [List.all_eq_true, Bool.and_eq_true] at htc htail
      cases h with
      | num d =>
        simp only [scalarMul, SymExprs.toList]
        refine mkMulCoeff_canon ?_ ?_
        · intro f hf
          exact ⟨(htc f hf).2, by simpa using (htc f hf).1,
            by simpa using htail f hf⟩
        · intro f hf
          have : badPair (.cons (.num d) t2) = false := by simpa using hbad
          cases t2 with
          | nil => simp [SymExprs.toList] at hf
          | cons r t3 =>
            cases t3 with
            | nil =>
              simp only [SymExprs.toList] at hf
              cases hf
              cases f <;> simp_all [badPair, SymExpr.isAdd]
            | cons r2 t4 => simp [SymExprs.toList] at hf
      | sym s =>
        simp only [scalarMul, SymExprs.toList]
        refine mkMulCoeff_canon ?_ ?_
        · intro f hf
          rcases List.mem_cons.mp hf with hf | hf
          · subst hf
            exact ⟨hhc, by simpa using hhm, rfl⟩
          · exact ⟨(htc f hf).2, by simpa using (htc f hf).1,
              by simpa using htail f hf⟩
        · intro f hf
          have h2 : t2.toList.length + 1 = (SymExprs.cons (SymExpr.sym s) t2).length := by
            rw [← SymExprs.toList_length]
            simp [SymExprs.toList]
          have : t2.toList = [] := by
            cases t2 with
            | nil => rfl
            | cons a t3 => simp [SymExprs.toList] at hf
          rw [this] at h2
          simp only [List.length_nil] at h2
          omega
      | add ts =>
        simp only [scalarMul, SymExprs.toList]
        refine mkMulCoeff_canon ?_ ?_
        · intro f hf
          rcases List.mem_cons.mp hf with hf | hf
          · subst hf
            exact ⟨hhc, by simpa using hhm, rfl⟩
          · exact ⟨(htc f hf).2, by simpa using (htc f hf).1,
              by simpa using htail f hf⟩
        · intro f hf
          have h2 : t2.toList.length + 1 = (SymExprs.cons (SymExpr.add ts) t2).length := by
            rw [← SymExprs.toList_length]
            simp [SymExprs.toList]
          have : t2.toList = [] := by
            cases t2 with
            | nil => rfl
            | cons a t3 => simp [SymExprs.toList] at hf
          rw [this] at h2
          simp only [List.length_nil] at h2
          omega
      | mul gs => simp [SymExpr.isMul] at hhm
      | pow b e =>
        simp only [scalarMul, SymExprs.toList]
        refine mkMulCoeff_canon ?_ ?_
        · intro f hf
          rcases List.mem_cons.mp hf with hf | hf
          · subst hf
            exact ⟨hhc, by simpa using hhm, rfl⟩
          · exact ⟨(htc f hf).2, by simpa using (htc f hf).1,
              by simpa using htail f hf⟩
        · intro f hf
          have h2 : t2.toList.length + 1 = (SymExprs.cons (SymExpr.pow b e) t2).length := by
            rw [← SymExprs.toList_length]
            simp [SymExprs.toList]
          have : t2.toList = [] := by
            cases t2 with
            | nil => rfl
            | cons a t3 => simp [SymExprs.toList] at hf
          rw [this] at h2
          simp only [List.length_nil] at h2
          omega
      | rel r a b =>
        simp only [scalarMul, SymExprs.toList]
        refine mkMulCoeff_canon ?_ ?_
        · intro f hf
          rcases List.mem_cons.mp hf with hf | hf
          · subst hf
            exact ⟨hhc, by simpa using hhm, rfl⟩
          · exact ⟨(htc f hf).2, by simpa using (htc f hf).1,
              by simpa using htail f hf⟩
        · intro f hf
          have h2 : t2.toList.length + 1 = (SymExprs.cons (SymExpr.rel r a b) t2).length := by
            rw [← SymExprs.toList_length]
            simp [SymExprs.toList]
          have : t2.toList = [] := by
            cases t2 with
            | nil => rfl
            | cons a t3 => simp [SymExprs.toList] at hf
          rw [this] at h2
          simp only [List.length_nil] at h2
          omega
      | func n as2 =>
        simp only [scalarMul, SymExprs.toList]
        refine mkMulCoeff_canon ?_ ?_
        · intro f hf
          rcases List.mem_cons.mp hf with hf | hf
          · subst hf
            exact ⟨hhc, by simpa using hhm, rfl⟩
          · exact ⟨(htc f hf).2, by simpa using (htc f hf).1,
              by simpa using htail f hf⟩
        · intro f hf
          have h2 : t2.toList.length + 1 = (SymExprs.cons (SymExpr.func n as2) t2).length := by
            rw [← SymExprs.toList_length]
            simp [SymExprs.toList]
          have : t2.toList = [] := by
            cases t2 with
            | nil => rfl
            | cons a t3 => simp [SymExprs.toList] at hf
          rw [this] at h2
          simp only [List.length_nil] at h2
          omega
      | boolL b =>
        simp only [scalarMul, SymExprs.toList]
        refine mkMulCoeff_canon ?_ ?_
        · intro f hf
          rcases List.mem_cons.mp hf with hf | hf
          · subst hf
            exact ⟨hhc, by simpa using hhm, rfl⟩
          · exact ⟨(htc f hf).2, by simpa using (htc f hf).1,
              by simpa using htail f hf⟩
        · intro f hf
          have h2 : t2.toList.length + 1 = (SymExprs.cons (SymExpr.boolL b) t2).length := by
            rw [← SymExprs.toList_length]
            simp [SymExprs.toList]
          have : t2.toList = [] := by
            cases t2 with
            | nil => rfl
            | cons a t3 => simp [SymExprs.toList] at hf
          rw [this] at h2
          simp only [List.length_nil] at h2
          omega
  | sym s =>
    simp only [scalarMul]
    exact mkMulCoeff_canon
      (fun f hf => by simp at hf; subst hf; exact ⟨hc, rfl, rfl⟩)
      (fun f hf => by simp at hf; rw [← hf]; exact hna)
  | pow b e =>
    simp only [scalarMul]
    exact mkMulCoeff_canon
      (fun f hf => by simp at hf; subst hf; exact ⟨hc, rfl, rfl⟩)
      (fun f hf => by simp at hf; rw [← hf]; exact hna)
  | rel r a b =>
    simp only [scalarMul]
    exact mkMulCoeff_canon
      (fun f hf => by simp at hf; subst hf; exact ⟨hc, rfl, rfl⟩)
      (fun f hf => by simp at hf; rw [← hf]; exact hna)
  | func n args =>
    simp only [scalarMul]
    exact mkMulCoeff_canon
      (fun f hf => by simp at hf; subst hf; exact ⟨hc, rfl, rfl⟩)
      (fun f hf => by simp at hf; rw [← hf]; exact hna)
  | boolL b =>
    simp only [scalarMul]
    exact mkMulCoeff_canon
      (fun f hf => by simp at hf; subst hf; exact ⟨hc, rfl, rfl⟩)
      (fun f hf => by simp at hf; rw [← hf]; exact hna)

/-- `mulAssemble` yields a canonical expression from canonical,
non-`Mul`, non-number factors. -/
theorem mulAssemble_canon {coeff : ℚ} {factors : List SymExpr}
    (h : ∀ f ∈ factors, canonB f = true ∧ f.isMul = false ∧ f.isNum = false) :
    canonB (mulAssemble coeff factors) = true := by
  unfold mulAssemble
  by_cases h0 : coeff = 0
  · simp [h0, canonB]
  · simp only [h0, if_false]
    match factors, h with
    | [], _ => rfl
    | [f], h =>
      by_cases h1 : coeff = 1
      · simp only [h1, if_true]
        exact (h f (by simp)).1
      · simp only [h1, if_false]
        have hf := h f (by simp)
        cases f with
        | add ts =>
          -- distribution of the coefficient over the lone sum
          refine addE_canon ?_
          intro y hy
          rw [List.mem_map] at hy
          obtain ⟨t, ht, hty⟩ := hy
          have hcadd := hf.1
          simp only [canonB, Bool.and_eq_true] at hcadd
          have := canonAddArgs_iff ts ▸ hcadd.2
          simp only [List.all_eq_true, Bool.and_eq_true] at this
          obtain ⟨h1, h2⟩ := this t ht
          exact hty ▸ scalarMul_canon h2 (by simpa using h1)
        | num q => simp [SymExpr.isNum] at hf
        | mul fs => simp [SymExpr.isMul] at hf
        | sym s =>
          refine canon_mul_ofList (by simp) ?_ (by simp [badPairL])
            (by simp [SymExpr.isNum])
          intro g hg
          rcases List.mem_cons.mp hg with hg | hg
          · subst hg; exact ⟨rfl, rfl⟩
          · simp only [List.mem_singleton] at hg
            subst hg
            exact ⟨rfl, hf.1⟩
        | pow b e =>
          refine canon_mul_ofList (by simp) ?_ (by simp [badPairL])
            (by simp [SymExpr.isNum])
          intro g hg
          rcases List.mem_cons.mp hg with hg | hg
          · subst hg; exact ⟨rfl, rfl⟩
          · simp only [List.mem_singleton] at hg
            subst hg
            exact ⟨rfl, hf.1⟩
        | rel r a b =>
          refine canon_mul_ofList (by simp) ?_ (by simp [badPairL])
            (by simp [SymExpr.isNum])
          intro g hg
          rcases List.mem_cons.mp hg with hg | hg
          · subst hg; exact ⟨rfl, rfl⟩
          · simp only [List.mem_singleton] at hg
            subst hg
            exact ⟨rfl, hf.1⟩
        | func n args =>
          refine canon_mul_ofList (by simp) ?_ (by simp [badPairL])
            (by simp [SymExpr.isNum])
          intro g hg
          rcases List.mem_cons.mp hg with hg | hg
          · subst hg; exact ⟨rfl, rfl⟩
          · simp only [List.mem_singleton] at hg
            subst hg
            exact ⟨rfl, hf.1⟩
        | boolL b =>
          refine canon_mul_ofList (by simp) ?_ (by simp [badPairL])
            (by simp [SymExpr.isNum])
          intro g hg
          rcases List.mem_cons.mp hg with hg | hg
          · subst hg; exact ⟨rfl, rfl⟩
          · simp only [List.mem_singleton] at hg
            subst hg
            exact ⟨rfl, hf.1⟩
    | f1 :: f2 :: t, h =>
      have hsorted : ∀ g ∈ sortByKey (f1 :: f2 :: t),
          canonB g = true ∧ g.isMul = false ∧ g.isNum = false :=
        fun g hg => h g (mem_sortByKey hg)
      have hlen : (sortByKey (f1 :: f2 :: t)).length = t.length + 2 := by
        simp [length_sortByKey]
      by_cases h1 : coeff = 1
      · simp only [h1, if_true]
        refine canon_mul_ofList (by omega) (fun g hg =>
          ⟨(hsorted g hg).2.1, (hsorted g hg).1⟩) ?_ ?_
        · refine badPairL_of_head_not_num fun g hg => ?_
          have : g ∈ sortByKey (f1 :: f2 :: t) := by
            cases hl : sortByKey (f1 :: f2 :: t) with
            | nil => rw [hl] at hg; simp [List.head?] at hg
            | cons a l2 =>
              rw [hl] at hg
              simp only [List.head?] at hg
              cases hg
              simp [hl]
          exact (hsorted g this).2.2
        · simp only [List.all_eq_true]
          intro g hg
          simp [(hsorted g (List.mem_of_mem_tail hg)).2.2]
      · simp only [h1, if_false]
        refine canon_mul_ofList (by simp only [List.length_cons]; omega) ?_ ?_ ?_
        · intro g hg
          rcases List.mem_cons.mp hg with hg | hg
          · subst hg; exact ⟨rfl, rfl⟩
          · exact ⟨(hsorted g hg).2.1, (hsorted g hg).1⟩
        · exact badPairL_false_of_long (by omega)
        · simp only [List.tail_cons, List.all_eq_true]
          intro g hg
          simp [(hsorted g hg).2.2]

/-- `mulE` yields a canonical expression from canonical arguments. -/
theorem mulE_canon {args : List SymExpr}
    (hargs : ∀ a ∈ args, canonB a = true) : canonB (mulE args) = true := by
  unfold mulE
  refine mulAssemble_canon ?_
  intro f hf
  rw [List.mem_filter] at hf
  obtain ⟨hf1, hf2⟩ := hf
  rw [List.mem_flatMap] at hf1
  obtain ⟨a, ha, hfa⟩ := hf1
  have hca := hargs a ha
  refine ⟨?_, ?_, by simpa using hf2⟩ <;>
  · cases a with
    | mul fs =>
      simp only at hfa
      simp only [canonB, Bool.and_eq_true] at hca
      have := canonMulArgs_iff fs ▸ hca.2
      simp only [List.all_eq_true, Bool.and_eq_true] at this
      obtain ⟨h1, h2⟩ := this f hfa
      first
        | exact h2
        | simpa using h1
    | num q => simp at hfa; subst hfa; first | exact hca | rfl
    | sym s => simp at hfa; subst hfa; first | exact hca | rfl
    | add ts => simp at hfa; subst hfa; first | exact hca | rfl
    | pow b e => simp at hfa; subst hfa; first | exact hca | rfl
    | rel r a b => simp at hfa; subst hfa; first | exact hca | rfl
    | func n as2 => simp at hfa; subst hfa; first | exact hca | rfl
    | boolL b => simp at hfa; subst hfa; first | exact hca | rfl

/-- Introduction form: a `Pow` of canonical parts is canonical. -/
theorem canonB_pow_intro {b e : SymExpr} (hb : canonB b = true)
    (he : canonB e = true) : canonB (.pow b e) = true := by
  simp [canonB, hb, he]

/-- Introduction form: a `Relational` of canonical parts is canonical. -/
theorem canonB_rel_intro {r : String} {a b : SymExpr} (ha : canonB a = true)
    (hb : canonB b = true) : canonB (.rel r a b) = true := by
  simp [canonB, ha, hb]

/-- `mkNumPow` preserves canonical form. -/
theorem mkNumPow_canon {b : SymExpr} {q : ℚ} (hb : canonB b = true) :
    canonB (mkNumPow b q) = true := by
  unfold mkNumPow
  by_cases h1 : q = 1
  · simpa [h1] using hb
  · by_cases h0 : q = 0
    · simp [h1, h0, canonB]
    · simp only [h1, h0, if_false]
      exact canonB_pow_intro hb rfl

/-- The non-numeric-exponent outcome of `powE` — the base-one collapse or
the raw `Pow` node — is canonical. -/
theorem powE_default_canon {b e : SymExpr} (hb : canonB b = true)
    (he : canonB e = true) :
    canonB (if b = SymExpr.num 1 then SymExpr.num 1 else .pow b e) = true := by
  by_cases h1 : b = SymExpr.num 1
  · simp [h1, canonB]
  · rw [if_neg h1]
    exact canonB_pow_intro hb he

/-- `powE` yields a canonical expression from canonical base and exponent. -/
theorem powE_canon {b e : SymExpr} (hb : canonB b = true)
    (he : canonB e = true) : canonB (powE b e) = true := by
  cases e with
  | num q =>
    simp only [powE]
    by_cases h1 : q = 1
    · simpa [h1] using hb
    · by_cases h0 : q = 0
      · simp [h1, h0, canonB]
      · simp only [h1, h0, if_false]
        cases b with
        | num p =>
          by_cases hd : q.den = 1
          · simp only [hd, if_true]
            by_cases hz : p = 0 ∧ q.num < 0
            · simp only [if_pos hz]
              exact canonB_pow_intro rfl rfl
            · simp only [if_neg hz]
              rfl
          · simp only [hd, if_false]
            by_cases hp : p = 1
            · simp [hp, canonB]
            · rw [if_neg hp]
              exact canonB_pow_intro rfl rfl
        | pow b2 e2 =>
          cases e2 with
          | num m =>
            by_cases hd : q.den = 1
            · simp only [hd, if_true]
              refine mkNumPow_canon ?_
              simp only [canonB, Bool.and_eq_true] at hb
              exact hb.1
            · simp only [hd, if_false]
              exact canonB_pow_intro hb rfl
          | sym s => exact canonB_pow_intro hb rfl
          | add ts => exact canonB_pow_intro hb rfl
          | mul fs => exact canonB_pow_intro hb rfl
          | pow a c => exact canonB_pow_intro hb rfl
          | rel r x y => exact canonB_pow_intro hb rfl
          | func n as2 => exact canonB_pow_intro hb rfl
          | boolL v => exact canonB_pow_intro hb rfl
        | sym s => exact canonB_pow_intro hb rfl
        | add ts => exact canonB_pow_intro hb rfl
        | mul fs => exact canonB_pow_intro hb rfl
        | rel r x y => exact canonB_pow_intro hb rfl
        | func n as2 => exact canonB_pow_intro hb rfl
        | boolL v => exact canonB_pow_intro hb rfl
  | sym s => exact powE_default_canon hb he
  | add ts => exact powE_default_canon hb he
  | mul fs => exact powE_default_canon hb he
  | pow a c => exact powE_default_canon hb he
  | rel r x y => exact powE_default_canon hb he
  | func n as2 => exact powE_default_canon hb he
  | boolL v => exact powE_default_canon hb he

/-- `funcE` yields a canonical expression from canonical arguments. -/
theorem funcE_canon {name : String} {args : List SymExpr}
    (h : ∀ a ∈ args, canonB a = true) : canonB (funcE name args) = true := by
  unfold funcE
  by_cases hn : name = "Abs"
  · simp only [hn, if_true]
    match args, h with
    | [], _ => simp [canonB, canonBs]
    | [SymExpr.num q], _ => simp [canonB]
    | [SymExpr.sym s], h => simp [canonB, canonBs_ofList]
    | [SymExpr.add ts], h =>
      simp only [canonB, canonBs_ofList, List.all_eq_true]
      exact fun f hf => h f hf
    | [SymExpr.mul fs], h =>
      simpa [canonB, canonBs_ofList] using fun f hf => h f hf
    | [SymExpr.pow b e], h =>
      simpa [canonB, canonBs_ofList] using fun f hf => h f hf
    | [SymExpr.rel r a b], h =>
      simpa [canonB, canonBs_ofList] using fun f hf => h f hf
    | [SymExpr.func n as2], h =>
      simpa [canonB, canonBs_ofList] using fun f hf => h f hf
    | [SymExpr.boolL b], h =>
      simp only [canonB, canonBs_ofList, List.all_eq_true]
      exact fun f hf => h f hf
    | a :: b :: t, h =>
      simpa [canonB, canonBs_ofList] using fun f hf => h f hf
  · simp only [hn, if_false]
    simpa [canonB, canonBs_ofList] using fun f hf => h f hf

/-- `relE` yields a canonical expression from canonical operands. -/
theorem relE_canon {r : String} {a b : SymExpr} (ha : canonB a = true)
    (hb : canonB b = true) : canonB (relE r a b) = true := by
  cases a <;> cases b <;> simp only [relE] <;>
    first
      | rfl
      | exact canonB_rel_intro ha hb

/-- A successful subtraction of canonical operands is canonical. -/
theorem symSub_canon {lhs rhs e : SymExpr} (hl : canonB lhs = true)
    (hr : canonB rhs = true) (h : symSub lhs rhs = some e) :
    canonB e = true := by
  unfold symSub at h
  cases hbb : isBoolish lhs || isBoolish rhs with
  | true => rw [hbb] at h; simp at h
  | false =>
    rw [hbb] at h
    simp only [Bool.false_eq_true, if_false, Option.some.injEq] at h
    subst h
    refine addE_canon ?_
    intro a ha
    rcases List.mem_cons.mp ha with ha | ha
    · subst ha; exact hl
    · simp only [List.mem_singleton] at ha
      subst ha
      refine mulE_canon ?_
      intro x hx
      rcases List.mem_cons.mp hx with hx | hx
      · subst hx; rfl
      · simp only [List.mem_singleton] at hx
        subst hx
        exact hr

mutual
/-- Every expression produced by evaluating a raw syntax tree through the
sympy constructors is canonical. -/
theorem build_canon : (a : RawAst) → canonB (build a) = true
  | .rnum q => rfl
  | .rvar s => rfl
  | .rcall f args => funcE_canon fun a ha => builds_canon args a ha
  | .radd a b => by
    refine addE_canon ?_
    intro x hx
    rcases List.mem_cons.mp hx with hx | hx
    · exact hx ▸ build_canon a
    · simp only [List.mem_singleton] at hx
      exact hx ▸ build_canon b
  | .rsub a b => by
    refine addE_canon ?_
    intro x hx
    rcases List.mem_cons.mp hx with hx | hx
    · exact hx ▸ build_canon a
    · simp only [List.mem_singleton] at hx
      subst hx
      refine mulE_canon ?_
      intro y hy
      rcases List.mem_cons.mp hy with hy | hy
      · exact hy ▸ rfl
      · simp only [List.mem_singleton] at hy
        exact hy ▸ build_canon b
  | .rmul a b => by
    refine mulE_canon ?_
    intro x hx
    rcases List.mem_cons.mp hx with hx | hx
    · exact hx ▸ build_canon a
    · simp only [List.mem_singleton] at hx
      exact hx ▸ build_canon b
  | .rdiv a b => by
    refine mulE_canon ?_
    intro x hx
    rcases List.mem_cons.mp hx with hx | hx
    · exact hx ▸ build_canon a
    · simp only [List.mem_singleton] at hx
      exact hx ▸ powE_canon (build_canon b) rfl
  | .rpow a b => powE_canon (build_canon a) (build_canon b)
  | .rneg a => by
    refine mulE_canon ?_
    intro x hx
    rcases List.mem_cons.mp hx with hx | hx
    · exact hx ▸ rfl
    · simp only [List.mem_singleton] at hx
      exact hx ▸ build_canon a

/-- All evaluated members of a raw argument list are canonical. -/
theorem builds_canon : (l : RawAsts) → ∀ e ∈ builds l, canonB e = true
  | .nil => by simp [builds]
  | .cons h t => by
    intro e he
    simp only [builds] at he
    rcases List.mem_cons.mp he with he | he
    · exact he ▸ build_canon h
    · exact builds_canon t e he
end

/-- Everything `sympify` returns is canonical. -/
theorem sympify_canon {s : List Char} {e : SymExpr}
    (h : sympify s = some e) : canonB e = true := by
  unfold sympify at h
  simp only [Option.bind_eq_bind, Option.bind_eq_some] at h
  obtain ⟨toks, _, h⟩ := h
  obtain ⟨⟨a, rest⟩, _, h⟩ := h
  match rest, h with
  | [], h =>
    simp only [Option.some.injEq] at h
    exact h ▸ build_canon a
  | Tok.trel r :: r2, h =>
    simp only [Option.bind_eq_some] at h
    obtain ⟨⟨b, rest2⟩, _, h⟩ := h
    match rest2, h with
    | [], h =>
      simp only [Option.some.injEq] at h
      exact h ▸ relE_canon (build_canon a) (build_canon b)

/-! ## The flattening invariant on serialized trees -/

/-- Is this node a `sum` node? -/
def Json.isJSum : Json → Bool
  | .jsum _ => true
  | _ => false

/-- Is this node a `product` node? -/
def Json.isJProd : Json → Bool
  | .jprod _ => true
  | _ => false

mutual
/-- No `sum` node has a direct `sum` child and no `product` node has a
direct `product` child, anywhere in the tree. -/
def noNestedJson : Json → Bool
  | .constInt _ => true
  | .constRat _ => true
  | .constStr _ => true
  | .jvar _ => true
  | .jfuncDef _ _ => true
  | .jsum ts => noNestedSumList ts
  | .jprod fs => noNestedProdList fs
  | .jpow b e => noNestedJson b && noNestedJson e
  | .jquotient a b => noNestedJson a && noNestedJson b
  | .jrel _ a b => noNestedJson a && noNestedJson b
  | .jabs a => noNestedJson a
  | .jcall _ args => noNestedJs args
  | .jpiecewise bs => noNestedJb bs

/-- Children of a `sum` node: no direct `sum`, recursively clean. -/
def noNestedSumList : Jsons → Bool
  | .nil => true
  | .cons h t => !h.isJSum && noNestedJson h && noNestedSumList t

/-- Children of a `product` node: no direct `product`, recursively clean. -/
def noNestedProdList : Jsons → Bool
  | .nil => true
  | .cons h t => !h.isJProd && noNestedJson h && noNestedProdList t

/-- All members clean. -/
def noNestedJs : Jsons → Bool
  | .nil => true
  | .cons h t => noNestedJson h && noNestedJs t

/-- All branches clean. -/
def noNestedJb : JBranches → Bool
  | .nil => true
  | .cons c e t => noNestedJson c && noNestedJson e && noNestedJb t
end

/-- The serializer emits a `sum` node exactly for `Add` expressions. -/
theorem exprToJson_isJSum (e : SymExpr) :
    (exprToJson e).isJSum = e.isAdd := by
  cases e with
  | func n args =>
    by_cases hn : n = "Abs"
    · cases args <;> simp [exprToJson, hn, Json.isJSum, SymExpr.isAdd]
    · by_cases hl : n = "log"
      · cases args <;> simp [exprToJson, hn, hl, Json.isJSum, SymExpr.isAdd]
      · cases args <;> simp [exprToJson, hn, hl, Json.isJSum, SymExpr.isAdd]
  | num q =>
    simp only [exprToJson]
    by_cases hd : q.den = 1 <;> simp [hd, Json.isJSum, SymExpr.isAdd]
  | sym s => rfl
  | add ts => rfl
  | mul fs => rfl
  | pow b e2 => rfl
  | rel r a b => rfl
  | boolL b => cases b <;> rfl

/-- The serializer emits a `product` node exactly for `Mul` expressions. -/
theorem exprToJson_isJProd (e : SymExpr) :
    (exprToJson e).isJProd = e.isMul := by
  cases e with
  | func n args =>
    by_cases hn : n = "Abs"
    · cases args <;> simp [exprToJson, hn, Json.isJProd, SymExpr.isMul]
    · by_cases hl : n = "log"
      · cases args <;> simp [exprToJson, hn, hl, Json.isJProd, SymExpr.isMul]
      · cases args <;> simp [exprToJson, hn, hl, Json.isJProd, SymExpr.isMul]
  | num q =>
    simp only [exprToJson]
    by_cases hd : q.den = 1 <;> simp [hd, Json.isJProd, SymExpr.isMul]
  | sym s => rfl
  | add ts => rfl
  | mul fs => rfl
  | pow b e2 => rfl
  | rel r a b => rfl
  | boolL b => cases b <;> rfl

mutual
/-- Serialization of a canonical expression never nests a `sum` directly
inside a `sum` or a `product` directly inside a `product`. -/
theorem canon_noNested : (e : SymExpr) → canonB e = true →
    noNestedJson (exprToJson e) = true
  | .num q, _ => by
    simp only [exprToJson]
    by_cases hd : q.den = 1 <;> simp [hd, noNestedJson]
  | .sym s, _ => rfl
  | .boolL b, _ => by cases b <;> rfl
  | .add ts, h => by
    simp only [canonB, Bool.and_eq_true] at h
    exact canon_noNested_sum ts h.2
  | .mul fs, h => by
    simp only [canonB, Bool.and_eq_true] at h
    exact canon_noNested_prod fs h.2
  | .pow b e, h => by
    simp only [canonB, Bool.and_eq_true] at h
    simp only [exprToJson, noNestedJson, Bool.and_eq_true]
    exact ⟨canon_noNested b h.1, canon_noNested e h.2⟩
  | .rel r a b, h => by
    simp only [canonB, Bool.and_eq_true] at h
    simp only [exprToJson, noNestedJson, Bool.and_eq_true]
    exact ⟨canon_noNested a h.1, canon_noNested b h.2⟩
  | .func n args, h => by
    simp only [canonB] at h
    by_cases hn : n = "Abs"
    · match args, h with
      | .nil, h => simp [exprToJson, hn, noNestedJson, noNestedJs]
      | .cons a t, h =>
        simp only [canonBs, Bool.and_eq_true] at h
        simp only [exprToJson, hn, if_true, noNestedJson]
        exact canon_noNested a h.1
    · by_cases hl : n = "log"
      · match args, h with
        | .nil, h => simp [exprToJson, hn, hl, noNestedJson, noNestedJs]
        | .cons a t, h =>
          simp only [canonBs, Bool.and_eq_true] at h
          simp only [exprToJson, hn, hl, if_false, if_true, noNestedJson,
            noNestedJs, Bool.and_eq_true]
          exact ⟨canon_noNested a h.1, trivial⟩
      · match args, h with
        | .nil, h => simp [exprToJson, hn, hl, noNestedJson, noNestedJs]
        | .cons a t, h =>
          simp only [canonBs, Bool.and_eq_true] at h
          simp only [exprToJson, hn, hl, if_false, noNestedJson, noNestedJs,
            Bool.and_eq_true]
          exact ⟨canon_noNested a h.1, canon_noNested_list t h.2⟩

/-- Members of a canonical `Add` serialize without a direct `sum` child. -/
theorem canon_noNested_sum : (ts : SymExprs) → canonAddArgs ts = true →
    noNestedSumList (exprsToJsons ts) = true
  | .nil, _ => rfl
  | .cons h t, hc => by
    simp only [canonAddArgs, Bool.and_eq_true] at hc
    simp only [exprsToJsons, noNestedSumList, Bool.and_eq_true]
    refine ⟨⟨?_, canon_noNested h hc.1.2⟩, canon_noNested_sum t hc.2⟩
    rw [exprToJson_isJSum]
    simpa using hc.1.1

/-- Members of a canonical `Mul` serialize without a direct `product`
child. -/
theorem canon_noNested_prod : (fs : SymExprs) → canonMulArgs fs = true →
    noNestedProdList (exprsToJsons fs) = true
  | .nil, _ => rfl
  | .cons h t, hc => by
    simp only [canonMulArgs, Bool.and_eq_true] at hc
    simp only [exprsToJsons, noNestedProdList, Bool.and_eq_true]
    refine ⟨⟨?_, canon_noNested h hc.1.2⟩, canon_noNested_prod t hc.2⟩
    rw [exprToJson_isJProd]
    simpa using hc.1.1

/-- Members of a canonical list serialize cleanly. -/
theorem canon_noNested_list : (l : SymExprs) → canonBs l = true →
    noNestedJs (exprsToJsons l) = true
  | .nil, _ => rfl
  | .cons h t, hc => by
    simp only [canonBs, Bool.and_eq_true] at hc
    simp only [exprsToJsons, noNestedJs, Bool.and_eq_true]
    exact ⟨canon_noNested h hc.1, canon_noNested_list t hc.2⟩
end

/-! ## Absence of quotient nodes -/

mutual
/-- Does a serialized tree contain a node of type `quotient` anywhere? -/
def jsonHasQuotient : Json → Bool
  | .constInt _ => false
  | .constRat _ => false
  | .constStr _ => false
  | .jvar _ => false
  | .jfuncDef _ _ => false
  | .jsum ts => jsonsHaveQuotient ts
  | .jprod fs => jsonsHaveQuotient fs
  | .jpow b e => jsonHasQuotient b || jsonHasQuotient e
  | .jquotient _ _ => true
  | .jrel _ a b => jsonHasQuotient a || jsonHasQuotient b
  | .jabs a => jsonHasQuotient a
  | .jcall _ args => jsonsHaveQuotient args
  | .jpiecewise bs => jbraHaveQuotient bs

/-- Quotient search over a node list. -/
def jsonsHaveQuotient : Jsons → Bool
  | .nil => false
  | .cons h t => jsonHasQuotient h || jsonsHaveQuotient t

/-- Quotient search over branches. -/
def jbraHaveQuotient : JBranches → Bool
  | .nil => false
  | .cons c e t => jsonHasQuotient c || jsonHasQuotient e || jbraHaveQuotient t
end

mutual
/-- The serializer has no branch that emits a `quotient` node: no sympy
expression ever serializes to one. -/
theorem exprToJson_no_quotient :
    (e : SymExpr) → jsonHasQuotient (exprToJson e) = false
  | .num q => by
    simp only [exprToJson]
    by_cases hd : q.den = 1 <;> simp [hd, jsonHasQuotient]
  | .sym s => rfl
  | .boolL b => by cases b <;> rfl
  | .add ts => by
    simp only [exprToJson, jsonHasQuotient]
    exact exprsToJsons_no_quotient ts
  | .mul fs => by
    simp only [exprToJson, jsonHasQuotient]
    exact exprsToJsons_no_quotient fs
  | .pow b e => by
    simp only [exprToJson, jsonHasQuotient, Bool.or_eq_false_iff]
    exact ⟨exprToJson_no_quotient b, exprToJson_no_quotient e⟩
  | .rel r a b => by
    simp only [exprToJson, jsonHasQuotient, Bool.or_eq_false_iff]
    exact ⟨exprToJson_no_quotient a, exprToJson_no_quotient b⟩
  | .func n args => by
    by_cases hn : n = "Abs"
    · match args with
      | .nil => simp [exprToJson, hn, jsonHasQuotient, jsonsHaveQuotient]
      | .cons a t =>
        simp only [exprToJson, hn, if_true, jsonHasQuotient]
        exact exprToJson_no_quotient a
    · by_cases hl : n = "log"
      · match args with
        | .nil => simp [exprToJson, hn, hl, jsonHasQuotient, jsonsHaveQuotient]
        | .cons a t =>
          simp only [exprToJson, hn, hl, if_false, if_true, jsonHasQuotient,
            jsonsHaveQuotient, Bool.or_eq_false_iff]
          exact ⟨exprToJson_no_quotient a, trivial⟩
      · match args with
        | .nil => simp [exprToJson, hn, hl, jsonHasQuotient, jsonsHaveQuotient]
        | .cons a t =>
          simp only [exprToJson, hn, hl, if_false, jsonHasQuotient,
            jsonsHaveQuotient, Bool.or_eq_false_iff]
          exact ⟨exprToJson_no_quotient a, exprsToJsons_no_quotient t⟩

/-- No member of a serialized list contains a `quotient` node. -/
theorem exprsToJsons_no_quotient :
    (l : SymExprs) → jsonsHaveQuotient (exprsToJsons l) = false
  | .nil => rfl
  | .cons h t => by
    simp only [exprsToJsons, jsonsHaveQuotient, Bool.or_eq_false_iff]
    exact ⟨exprToJson_no_quotient h, exprsToJsons_no_quotient t⟩
end

/-! ## Pipeline-level facts -/

/-- A parsed branch serializes cleanly (no nested same-kind nodes). -/
theorem branchOf_clean {part : List Char} {br : Json × Json}
    (h : branchOf part = some br) :
    noNestedJson br.1 = true ∧ noNestedJson br.2 = true := by
  unfold branchOf at h
  by_cases hp : pyStrip part = []
  · simp [hp] at h
  · simp only [hp, if_neg, if_false] at h
    match hr : rfindChar ',' (pyStrip part), h with
    | none, h => simp [hr] at h
    | some idx, h =>
      simp only [hr] at h
      match he : sympify (normalizeLine ((pyStrip part).take idx)),
          hc : sympify (normalizeLine ((pyStrip part).drop (idx + 1))), h with
      | some e, some c, h =>
        simp only [he, hc, Option.some.injEq] at h
        subst h
        exact ⟨canon_noNested _ (sympify_canon hc),
          canon_noNested _ (sympify_canon he)⟩
      | some e, none, h =>
        simp only [he, hc, Option.some.injEq] at h
        subst h
        exact ⟨rfl, rfl⟩
      | none, some c, h =>
        simp only [he, hc, Option.some.injEq] at h
        subst h
        exact ⟨rfl, rfl⟩
      | none, none, h =>
        simp only [he, hc, Option.some.injEq] at h
        subst h
        exact ⟨rfl, rfl⟩

/-- All processed branches serialize cleanly. -/
theorem processBranches_clean :
    ∀ parts : List (List Char),
      noNestedJb (jbOfList (processBranches parts)) = true := by
  intro parts
  induction parts with
  | nil => rfl
  | cons p ps ih =>
    unfold processBranches at ih ⊢
    rw [List.filterMap_cons]
    match hb : branchOf p with
    | none => exact ih
    | some br =>
      obtain ⟨c, e⟩ := br
      simp only [jbOfList, noNestedJb, Bool.and_eq_true]
      have := branchOf_clean hb
      exact ⟨⟨this.1, this.2⟩, ih⟩

/-- Shape of a successful piecewise parse. -/
theorem parsePiecewise_fields {l : List Char} {pw : Equation}
    (h : parsePiecewise l = some pw) :
    pw.lhs = .jfuncDef "f" "x" ∧
      ∃ parts, pw.rhs = .jpiecewise (jbOfList (processBranches parts)) := by
  unfold parsePiecewise at h
  simp only [Option.bind_eq_bind, Option.bind_eq_some] at h
  obtain ⟨content, _, h⟩ := h
  by_cases hb : processBranches (splitOnChar ';' (pyStrip content)) = []
  · simp [hb] at h
  · simp only [hb, if_neg, if_false, Option.some.injEq] at h
    subst h
    exact ⟨rfl, ⟨splitOnChar ';' (pyStrip content), rfl⟩⟩

/-- Serialized trees of every surviving record are free of directly nested
same-kind `sum`/`product` nodes. -/
theorem parseEquation_noNested {line : String} {i : Nat} {eq : Equation}
    (h : parseEquation line i = .ok (some eq)) :
    noNestedJson eq.lhs = true ∧ noNestedJson eq.rhs = true := by
  unfold parseEquation at h
  by_cases hr : pyStrip line.data = []
  · simp [hr] at h
  · simp only [hr, if_neg, if_false] at h
    match hpw : parsePiecewise (pyStrip line.data), h with
    | some pw, h =>
      simp only [hpw, Except.ok.injEq, Option.some.injEq] at h
      subst h
      obtain ⟨hl, ⟨parts, hr2⟩⟩ := parsePiecewise_fields hpw
      constructor
      · show noNestedJson pw.lhs = true
        rw [hl]
        rfl
      · show noNestedJson pw.rhs = true
        rw [hr2]
        exact processBranches_clean parts
    | none, h =>
      simp only [hpw] at h
      rcases hdet : detectRelation (normalizeLine (pyStrip line.data))
        with ⟨rel, lhsS, rhsS⟩
      rw [hdet] at h
      simp only at h
      by_cases hc :
          (decide (rel = []) || decide (lhsS = []) || decide (rhsS = [])) = true
      · rw [if_pos hc] at h
        simp at h
      · rw [if_neg hc] at h
        rcases he1 : sympify lhsS with _ | l <;>
          rcases he2 : sympify rhsS with _ | r <;> rw [he1, he2] at h
        · simp at h
        · simp at h
        · simp at h
        · simp only at h
          rcases hcl : classifyEquation l r rel (symsUnion l r) with e | ty <;>
            rw [hcl] at h
          · simp at h
          · simp only [Except.ok.injEq, Option.some.injEq] at h
            subst h
            exact ⟨canon_noNested _ (sympify_canon he1),
              canon_noNested _ (sympify_canon he2)⟩

/-- A surviving record carries exactly the line index it was parsed with. -/
theorem parseEquation_id {line : String} {i : Nat} {eq : Equation}
    (h : parseEquation line i = .ok (some eq)) : eq.id = i := by
  unfold parseEquation at h
  by_cases hr : pyStrip line.data = []
  · simp [hr] at h
  · simp only [hr, if_neg, if_false] at h
    match hpw : parsePiecewise (pyStrip line.data), h with
    | some pw, h =>
      simp only [hpw, Except.ok.injEq, Option.some.injEq] at h
      subst h
      rfl
    | none, h =>
      simp only [hpw] at h
      rcases hdet : detectRelation (normalizeLine (pyStrip line.data))
        with ⟨rel, lhsS, rhsS⟩
      rw [hdet] at h
      simp only at h
      by_cases hc :
          (decide (rel = []) || decide (lhsS = []) || decide (rhsS = [])) = true
      · rw [if_pos hc] at h
        simp at h
      · rw [if_neg hc] at h
        rcases he1 : sympify lhsS with _ | l <;>
          rcases he2 : sympify rhsS with _ | r <;> rw [he1, he2] at h
        · simp at h
        · simp at h
        · simp at h
        · simp only at h
          rcases hcl : classifyEquation l r rel (symsUnion l r) with e | ty <;>
            rw [hcl] at h
          · simp at h
          · simp only [Except.ok.injEq, Option.some.injEq] at h
            subst h
            rfl

/-- Python-level view of a per-line outcome: a caught failure and a skip
both leave nothing; only an uncaught exception differs, and that aborts
the batch. -/
def okOrNone : Except Unit (Option Equation) → Option Equation
  | .ok o => o
  | .error _ => none

/-- The batch loop keeps exactly the surviving records, in input order,
pairing each line with its 1-based index. -/
theorem parseLinesFrom_eq :
    ∀ (lines : List String) (i : Nat) (eqs : List Equation),
      parseLinesFrom i lines = .ok eqs →
      eqs = (List.enumFrom i lines).filterMap
        (fun p => okOrNone (parseEquation p.2 p.1)) := by
  intro lines
  induction lines with
  | nil =>
    intro i eqs h
    simp only [parseLinesFrom, Except.ok.injEq] at h
    simp [← h]
  | cons l rest ih =>
    intro i eqs h
    unfold parseLinesFrom at h
    rcases hp : parseEquation l i with e | po <;> rw [hp] at h
    · simp [Bind.bind, Except.bind] at h
    · simp only [Bind.bind, Except.bind] at h
      rcases hrest : parseLinesFrom (i + 1) rest with e2 | restEqs <;>
        rw [hrest] at h
      · simp at h
      · have hr := ih (i + 1) restEqs hrest
        rw [List.enumFrom_cons, List.filterMap_cons]
        simp only [okOrNone, hp]
        cases po with
        | none =>
          simp only [Except.ok.injEq] at h
          subst h
          exact hr
        | some eq =>
          simp only [Except.ok.injEq] at h
          subst h
          rw [hr]
          rfl

/-- Indexed membership in an enumeration. -/
theorem mem_enumFrom_get :
    ∀ {α : Type} (l : List α) (n : Nat) (p : Nat × α),
      p ∈ List.enumFrom n l → n ≤ p.1 ∧ l.get? (p.1 - n) = some p.2 := by
  intro α l
  induction l with
  | nil => intro n p h; simp [List.enumFrom] at h
  | cons a rest ih =>
    intro n p h
    rw [List.enumFrom_cons] at h
    rcases List.mem_cons.mp h with h | h
    · subst h
      simp
    · obtain ⟨h1, h2⟩ := ih (n + 1) p h
      refine ⟨by omega, ?_⟩
      have : p.1 - n = (p.1 - (n + 1)) + 1 := by omega
      rw [this]
      simpa using h2

/-- A blank line yields no record and no error. -/
theorem parseEquation_blank (i : Nat) : parseEquation "" i = .ok none := rfl

/-- `splitFirst` really splits at the leftmost occurrence: the returned
left part concatenates back, and no shorter left part admits the
separator. -/
theorem splitFirst_spec {sep : List Char} (hsep : sep ≠ []) :
    ∀ {s a b : List Char}, splitFirst sep s = some (a, b) →
      s = a ++ sep ++ b ∧
        ∀ a' b', s = a' ++ sep ++ b' → a.length ≤ a'.length := by
  intro s
  induction s with
  | nil =>
    intro a b h
    match sep, hsep with
    | c :: cs, _ => simp [splitFirst, List.isPrefixOf] at h
  | cons c rest ih =>
    intro a b h
    unfold splitFirst at h
    by_cases hpre : sep.isPrefixOf (c :: rest)
    · rw [if_pos hpre] at h
      simp only [Option.some.injEq, Prod.mk.injEq] at h
      obtain ⟨ha, hb⟩ := h
      obtain ⟨t, ht⟩ := List.isPrefixOf_iff_prefix.mp hpre
      subst ha
      refine ⟨?_, fun a' b' _ => by simp⟩
      rw [← hb, ← ht]
      simp [← ht, List.drop_left]
    · rw [if_neg hpre] at h
      simp only [Option.map_eq_some'] at h
      obtain ⟨⟨a0, b0⟩, hsp, heq⟩ := h
      simp only [Prod.mk.injEq] at heq
      obtain ⟨ha, hb⟩ := heq
      obtain ⟨hrest, hmin⟩ := ih hsp
      subst ha
      subst hb
      constructor
      · simp [hrest]
      · intro a' b' hsplit
        match a', hsplit with
        | [], hsplit =>
          exfalso
          exact hpre (List.isPrefixOf_iff_prefix.mpr ⟨b', by simpa using hsplit.symm⟩)
        | c' :: a'', hsplit =>
          simp only [List.cons_append, List.cons.injEq] at hsplit
          simp only [List.length_cons, Nat.add_le_add_iff_right]
          exact hmin a'' b' hsplit.2

theorem isSome_false_eq_none {α : Type} {o : Option α}
    (h : o.isSome = false) : o = none := by
  cases o with
  | none => rfl
  | some v => simp at h

/-- When none of the five relational operators occurs in the string,
`_detect_relation` reports no relation and returns the string unsplit. -/
theorem detectRelation_not_found {s : List Char}
    (h : ∀ rel ∈ relPriority, containsSub s rel = false) :
    detectRelation s = ([], s, []) := by
  have h1 := h ">=".data (by simp [relPriority])
  have h2 := h "<=".data (by simp [relPriority])
  have h3 := h "=".data (by simp [relPriority])
  have h4 := h ">".data (by simp [relPriority])
  have h5 := h "<".data (by simp [relPriority])
  simp only [containsSub] at h1 h2 h3 h4 h5
  simp [detectRelation, relPriority, detectRelationAux,
    isSome_false_eq_none h1, isSome_false_eq_none h2, isSome_false_eq_none h3,
    isSome_false_eq_none h4, isSome_false_eq_none h5]

/-- When the two-character operator occurs, it wins over every later
operator in the priority list and the string is split at its leftmost
occurrence. -/
theorem detectRelation_ge {s a b : List Char}
    (h : splitFirst ">=".data s = some (a, b)) :
    detectRelation s = (">=".data, pyStrip a, pyStrip b) := by
  simp [detectRelation, relPriority, detectRelationAux, h]

/-- The single `=` is tried before `>` and `<`: when neither two-character
operator occurs but `=` does, the split happens at the leftmost `=`. -/
theorem detectRelation_eq {s a b : List Char}
    (h1 : containsSub s ">=".data = false)
    (h2 : containsSub s "<=".data = false)
    (h : splitFirst "=".data s = some (a, b)) :
    detectRelation s = ("=".data, pyStrip a, pyStrip b) := by
  simp only [containsSub] at h1 h2
  simp [detectRelation, relPriority, detectRelationAux,
    isSome_false_eq_none h1, isSome_false_eq_none h2, h]

/-- A line that is not piecewise and whose relation detection yields no
operator or an empty side is skipped: no record, no error. -/
theorem parseEquation_skip {line : String} {i : Nat}
    (hpw : parsePiecewise (pyStrip line.data) = none)
    (hdet : (detectRelation (normalizeLine (pyStrip line.data))).1 = [] ∨
      (detectRelation (normalizeLine (pyStrip line.data))).2.1 = [] ∨
      (detectRelation (normalizeLine (pyStrip line.data))).2.2 = []) :
    parseEquation line i = .ok none := by
  unfold parseEquation
  by_cases hr : pyStrip line.data = []
  · simp [hr]
  · simp only [hr, if_neg, if_false, hpw]
    have : (decide ((detectRelation (normalizeLine (pyStrip line.data))).1 = []) ||
        decide ((detectRelation (normalizeLine (pyStrip line.data))).2.1 = []) ||
        decide ((detectRelation (normalizeLine (pyStrip line.data))).2.2 = [])) = true := by
      rcases hdet with h | h | h <;> simp [h]
    rw [if_pos this]

/-- A branch part survives exactly when it is nonempty after trimming and
contains a comma; parse failures inside it never drop it. -/
theorem branchOf_isSome (p : List Char) :
    (branchOf p).isSome =
      (decide (pyStrip p ≠ []) && (rfindChar ',' (pyStrip p)).isSome) := by
  unfold branchOf
  by_cases hp : pyStrip p = []
  · simp [hp]
  · simp only [hp, if_neg, if_false, decide_not]
    rcases hidx : rfindChar ',' (pyStrip p) with _ | idx
    · simp [hp]
    · rcases he : sympify (normalizeLine ((pyStrip p).take idx)) with _ | e <;>
        rcases hc : sympify (normalizeLine ((pyStrip p).drop (idx + 1)))
          with _ | c <;> simp [hp, he, hc]

/-- The number of branches in the output equals the number of
`;`-separated parts that are nonempty and contain a comma. -/
theorem processBranches_length (parts : List (List Char)) :
    (processBranches parts).length =
      parts.countP
        (fun p => decide (pyStrip p ≠ []) && (rfindChar ',' (pyStrip p)).isSome) := by
  induction parts with
  | nil => rfl
  | cons p ps ih =>
    unfold processBranches at ih ⊢
    rw [List.filterMap_cons, List.countP_cons]
    have hs := branchOf_isSome p
    rcases hb : branchOf p with _ | br
    · rw [hb] at hs
      simp only [Option.isSome_none] at hs
      have hneg :
          ¬((decide (pyStrip p ≠ []) &&
            (rfindChar ',' (pyStrip p)).isSome) = true) := by
        rw [← hs]
        simp
      rw [if_neg hneg, Nat.add_zero]
      exact ih
    · rw [hb] at hs
      simp only [Option.isSome_some] at hs
      rw [if_pos hs.symm]
      simp [ih]

/-- A branch whose expression or condition fails to sympify is recorded
with constant fallback nodes holding the (normalized) raw sub-strings
rather than dropped. -/
theorem branchOf_fallback {p : List Char} {idx : Nat}
    (hne : pyStrip p ≠ []) (hidx : rfindChar ',' (pyStrip p) = some idx)
    (hfail : sympify (normalizeLine ((pyStrip p).take idx)) = none ∨
      sympify (normalizeLine ((pyStrip p).drop (idx + 1))) = none) :
    branchOf p = some
      (Json.constStr (String.mk (normalizeLine ((pyStrip p).drop (idx + 1)))),
       Json.constStr (String.mk (normalizeLine ((pyStrip p).take idx)))) := by
  unfold branchOf
  simp only [hne, if_neg, if_false, hidx]
  rcases he : sympify (normalizeLine ((pyStrip p).take idx)) with _ | e <;>
    rcases hc : sympify (normalizeLine ((pyStrip p).drop (idx + 1))) with _ | c <;>
      simp_all

/-- The parametric rule re-runs the same degree analysis that the
linear/quadratic/polynomial rules already evaluated, so it can never fire:
no argument combination makes `_classify_equation` return `parametric`. -/
theorem classifyEquation_ne_parametric (lhs rhs : SymExpr) (rel : List Char)
    (vars : List String) : classifyEquation lhs rhs rel vars ≠ .ok "parametric" := by
  intro h
  unfold classifyEquation at h
  by_cases hrel : rel ≠ ['=']
  · rw [if_pos hrel] at h
    rcases hsub : symSub lhs rhs with _ | expr <;> rw [hsub] at h <;> try simp only at h
    · simp at h
    · by_cases hv : vars ≠ []
      · rw [if_pos hv] at h
        rcases hp : polyDegFirst expr (symsUnion lhs rhs) with _ | d <;>
          rw [hp] at h <;> try simp only at h
        · simp at h
        · by_cases hd : d ≤ 1
          · rw [if_pos hd] at h
            simp at h
          · rw [if_neg hd] at h
            simp at h
      · rw [if_neg hv] at h
        simp at h
  · rw [if_neg hrel] at h
    by_cases hv : vars = []
    · rw [if_pos hv] at h
      simp at h
    · rw [if_neg hv] at h
      simp only at h
      rcases hsub : symSub lhs rhs with _ | expr <;> rw [hsub] at h <;> try simp only at h
      · simp at h
      · rcases hpoly : (if symsUnion lhs rhs ≠ [] then
            polyDegFirst expr (symsUnion lhs rhs) else none) with _ | d <;>
          rw [hpoly] at h <;> try simp only at h
        · -- the degree analysis failed: walk the cascade
          by_cases h1 : isExponentialLhs lhs = true
          · rw [if_pos h1] at h
            simp at h
          · rw [if_neg h1] at h
            by_cases h2 : isLogarithmicLhs lhs = true
            · rw [if_pos h2] at h
              simp at h
            · rw [if_neg h2] at h
              by_cases h3 : isRadicalLhs lhs = true
              · rw [if_pos h3] at h
                simp at h
              · rw [if_neg h3] at h
                by_cases h4 : isPowerLhs lhs = true
                · rw [if_pos h4] at h
                  simp at h
                · rw [if_neg h4] at h
                  by_cases h5 : isRationalExpr expr (symsUnion lhs rhs) = true
                  · rw [if_pos h5] at h
                    simp at h
                  · rw [if_neg h5] at h
                    by_cases h6 : isAbsLhs lhs = true
                    · rw [if_pos h6] at h
                      simp at h
                    · rw [if_neg h6] at h
                      -- the parametric test re-runs the identical analysis
                      have hfalse : (decide (2 ≤ (symsUnion lhs rhs).length) &&
                          (match polyDegFirst expr (symsUnion lhs rhs) with
                           | some d => decide (d ≤ 1)
                           | none => false)) = false := by
                        by_cases hsy : symsUnion lhs rhs ≠ []
                        · rw [if_pos hsy] at hpoly
                          rw [hpoly]
                          simp
                        · push_neg at hsy
                          rw [hsy]
                          simp
                      rw [if_neg (by simp [hfalse])] at h
                      by_cases h7 : isFunctionalLhs lhs = true
                      · rw [if_pos h7] at h
                        simp at h
                      · rw [if_neg h7] at h
                        by_cases h8 : (!isNumberE lhs && !isNumberE rhs) = true
                        · rw [if_pos h8] at h
                          simp at h
                        · rw [if_neg h8] at h
                          simp at h
        · by_cases hd : d ≤ 1
          · rw [if_pos hd] at h
            simp at h
          · rw [if_neg hd] at h
            by_cases hd2 : d = 2
            · rw [if_pos hd2] at h
              simp at h
            · rw [if_neg hd2] at h
              simp at h

/-- Classification of an equality whose degree analysis succeeds over a
single variable. -/
theorem classifyEquation_eq_single {lhs rhs expr : SymExpr} {v : String}
    {d : Nat} (hsy : symsUnion lhs rhs = [v])
    (hsub : symSub lhs rhs = some expr)
    (hdeg : polyDeg [v] v expr = some d) :
    classifyEquation lhs rhs ['='] (symsUnion lhs rhs) =
      .ok (if d ≤ 1 then "linear"
           else if d = 2 then "quadratic" else "polynomial") := by
  unfold classifyEquation
  rw [if_neg (by simp)]
  rw [if_neg (by simp [hsy])]
  simp only [hsub, hsy]
  rw [if_pos (by simp)]
  simp [polyDegFirst, hdeg]

/-- Classification of inequalities, transcribing the inequality branch:
an empty variable set, a failed subtraction, or a failed degree analysis
all yield the bare `inequality` tag; a successful single-variable analysis
yields `inequality_linear`/`inequality_polynomial` by degree. -/
theorem classifyEquation_ineq {lhs rhs : SymExpr} {rel : List Char}
    (hrel : rel ≠ ['=']) :
    classifyEquation lhs rhs rel [] = .ok "inequality" ∧
    (symSub lhs rhs = none →
      ∀ vars, classifyEquation lhs rhs rel vars = .ok "inequality") ∧
    (∀ expr vars, symSub lhs rhs = some expr → vars ≠ [] →
      polyDegFirst expr (symsUnion lhs rhs) = none →
      classifyEquation lhs rhs rel vars = .ok "inequality") ∧
    (∀ expr v d, symSub lhs rhs = some expr → symsUnion lhs rhs = [v] →
      polyDeg [v] v expr = some d →
      classifyEquation lhs rhs rel (symsUnion lhs rhs) =
        .ok (if d ≤ 1 then "inequality_linear" else "inequality_polynomial")) := by
  refine ⟨?_, ?_, ?_, ?_⟩
  · unfold classifyEquation
    rw [if_pos hrel]
    rcases hsub : symSub lhs rhs with _ | expr
    · rfl
    · simp
  · intro hsub vars
    unfold classifyEquation
    rw [if_pos hrel, hsub]
  · intro expr vars hsub hv hpoly
    unfold classifyEquation
    rw [if_pos hrel, hsub]
    simp only
    rw [if_pos hv, hpoly]
  · intro expr v d hsub hsy hdeg
    unfold classifyEquation
    rw [if_pos hrel, hsub]
    simp only
    rw [if_pos (by simp [hsy]), hsy]
    simp [polyDegFirst, hdeg]

/-- Decidable equality for `Except`, for evaluating pipeline outcomes on
concrete inputs. -/
instance {α β : Type} [DecidableEq α] [DecidableEq β] :
    DecidableEq (Except α β) := fun x y =>
  match x, y with
  | .error a, .error b =>
    if h : a = b then .isTrue (by rw [h]) else .isFalse (by simp [h])
  | .error _, .ok _ => .isFalse (by simp)
  | .ok _, .error _ => .isFalse (by simp)
  | .ok a, .ok b =>
    if h : a = b then .isTrue (by rw [h]) else .isFalse (by simp [h])

/-! ## The spec's notion of degree, and remaining pipeline lemmas -/

mutual
/-- Modelled from the spec's words: the degree of a polynomial is its
maximum total degree over monomials, every variable contributing its
exponent.  It mirrors the recursion of `polyDeg` (which reports the degree
in a single generator, sympy's `Poly.degree()`), so that the two readings
of "degree" can be compared on concrete expressions. -/
def specTotalDeg (gens : List String) : SymExpr → Option Nat
  | .num _ => some 0
  | .sym s => some (if gens.contains s then 1 else 0)
  | .add ts => (specTotalDegs gens ts).map fun l => l.foldl max 0
  | .mul fs => (specTotalDegs gens fs).map fun l => l.foldl (· + ·) 0
  | .pow b e =>
    match e with
    | .num q =>
      if q.den = 1 && 0 ≤ q.num then
        (specTotalDeg gens b).map (· * q.num.toNat)
      else if hasGens b gens then none else some 0
    | e => if hasGens b gens || hasGens e gens then none else some 0
  | .rel r a b => if hasGens (.rel r a b) gens then none else some 0
  | .func n args => if hasGens (.func n args) gens then none else some 0
  | .boolL _ => some 0

/-- Total degrees of a list of expressions, all of which must be
polynomial in the generators. -/
def specTotalDegs (gens : List String) : SymExprs → Option (List Nat)
  | .nil => some []
  | .cons h t => do
    let d ← specTotalDeg gens h
    let ds ← specTotalDegs gens t
    some (d :: ds)
end

/-- A successful piecewise parse is tagged `piecewise`. -/
theorem parsePiecewise_type {l : List Char} {pw : Equation}
    (h : parsePiecewise l = some pw) : pw.equation_type = "piecewise" := by
  unfold parsePiecewise at h
  simp only [Option.bind_eq_bind, Option.bind_eq_some] at h
  obtain ⟨content, _, h⟩ := h
  by_cases hb : processBranches (splitOnChar ';' (pyStrip content)) = []
  · simp [hb] at h
  · simp only [hb, if_neg, if_false, Option.some.injEq] at h
    subst h
    rfl

/-- Characterization of a surviving non-piecewise record: its fields come
from the detected relation, the two sympified sides and the classifier. -/
theorem parseEquation_classified {line : String} {i : Nat} {eq : Equation}
    (hpw : parsePiecewise (pyStrip line.data) = none)
    (h : parseEquation line i = .ok (some eq)) :
    ∃ lhs rhs,
      sympify (detectRelation (normalizeLine (pyStrip line.data))).2.1 = some lhs ∧
      sympify (detectRelation (normalizeLine (pyStrip line.data))).2.2 = some rhs ∧
      eq.vars = symsUnion lhs rhs ∧
      eq.relation = String.mk (detectRelation (normalizeLine (pyStrip line.data))).1 ∧
      classifyEquation lhs rhs (detectRelation (normalizeLine (pyStrip line.data))).1
        (symsUnion lhs rhs) = .ok eq.equation_type := by
  unfold parseEquation at h
  by_cases hr : pyStrip line.data = []
  · simp [hr] at h
  · simp only [hr, if_neg, if_false, hpw] at h
    rcases hdet : detectRelation (normalizeLine (pyStrip line.data))
      with ⟨rel, lhsS, rhsS⟩
    rw [hdet] at h
    simp only at h
    by_cases hc :
        (decide (rel = []) || decide (lhsS = []) || decide (rhsS = [])) = true
    · rw [if_pos hc] at h
      simp at h
    · rw [if_neg hc] at h
      rcases he1 : sympify lhsS with _ | l <;>
        rcases he2 : sympify rhsS with _ | r <;> rw [he1, he2] at h
      · simp at h
      · simp at h
      · simp at h
      · simp only at h
        rcases hcl : classifyEquation l r rel (symsUnion l r) with e | ty <;>
          rw [hcl] at h
        · simp at h
        · simp only [Except.ok.injEq, Option.some.injEq] at h
          subst h
          exact ⟨l, r, rfl, rfl, rfl, rfl, hcl⟩

/-- A parsed branch contains no `quotient` node, whichever way it was
produced (serialized expressions or constant fallbacks). -/
theorem branchOf_noQuot {part : List Char} {br : Json × Json}
    (h : branchOf part = some br) :
    jsonHasQuotient br.1 = false ∧ jsonHasQuotient br.2 = false := by
  unfold branchOf at h
  by_cases hp : pyStrip part = []
  · simp [hp] at h
  · simp only [hp, if_neg, if_false] at h
    match hr : rfindChar ',' (pyStrip part), h with
    | none, h => simp [hr] at h
    | some idx, h =>
      simp only [hr] at h
      match he : sympify (normalizeLine ((pyStrip part).take idx)),
          hc : sympify (normalizeLine ((pyStrip part).drop (idx + 1))), h with
      | some e, some c, h =>
        simp only [he, hc, Option.some.injEq] at h
        subst h
        exact ⟨exprToJson_no_quotient c, exprToJson_no_quotient e⟩
      | some e, none, h =>
        simp only [he, hc, Option.some.injEq] at h
        subst h
        exact ⟨rfl, rfl⟩
      | none, some c, h =>
        simp only [he, hc, Option.some.injEq] at h
        subst h
        exact ⟨rfl, rfl⟩
      | none, none, h =>
        simp only [he, hc, Option.some.injEq] at h
        subst h
        exact ⟨rfl, rfl⟩

/-- No processed branch list contains a `quotient` node. -/
theorem processBranches_noQuot :
    ∀ parts : List (List Char),
      jbraHaveQuotient (jbOfList (processBranches parts)) = false := by
  intro parts
  induction parts with
  | nil => rfl
  | cons p ps ih =>
    unfold processBranches at ih ⊢
    rw [List.filterMap_cons]
    match hb : branchOf p with
    | none => exact ih
    | some br =>
      obtain ⟨c, e⟩ := br
      simp only [jbOfList, jbraHaveQuotient, Bool.or_eq_false_iff]
      have := branchOf_noQuot hb
      exact ⟨⟨this.1, this.2⟩, ih⟩

/-! ## The claims -/

/-- C1: for a surviving non-piecewise line whose detected relation is `=`,
whose variable set is nonempty and whose `lhs - rhs` admits a polynomial
degree analysis reporting degree `d` (the degree in the first generator,
sympy's `Poly.degree()`, which in the single-variable case is the
polynomial's degree), the record's `equation_type` is `linear` when
`d ≤ 1`, `quadratic` when `d = 2` and `polynomial` when `d > 2`. -/
theorem C1_degree_classification {line : String} {i : Nat} {eq : Equation}
    {lhs rhs expr : SymExpr} {d : Nat}
    (hpw : parsePiecewise (pyStrip line.data) = none)
    (h : parseEquation line i = .ok (some eq))
    (hrel : (detectRelation (normalizeLine (pyStrip line.data))).1 = ['='])
    (hl : sympify (detectRelation (normalizeLine (pyStrip line.data))).2.1 = some lhs)
    (hr : sympify (detectRelation (normalizeLine (pyStrip line.data))).2.2 = some rhs)
    (hv : symsUnion lhs rhs ≠ [])
    (hsub : symSub lhs rhs = some expr)
    (hdeg : polyDegFirst expr (symsUnion lhs rhs) = some d) :
    eq.equation_type =
      if d ≤ 1 then "linear" else if d = 2 then "quadratic" else "polynomial" := by
  obtain ⟨l, r, he1, he2, _, _, hcl⟩ := parseEquation_classified hpw h
  rw [hl] at he1
  rw [hr] at he2
  obtain rfl : l = lhs := (Option.some.inj he1).symm
  obtain rfl : r = rhs := (Option.some.inj he2).symm
  rw [hrel] at hcl
  have hval : classifyEquation l r ['='] (symsUnion l r) =
      .ok (if d ≤ 1 then "linear" else if d = 2 then "quadratic"
           else "polynomial") := by
    unfold classifyEquation
    rw [if_neg (by simp)]
    rw [if_neg hv]
    simp only [hsub]
    rw [if_pos hv]
    simp [hdeg]
  rw [hval] at hcl
  exact (Except.ok.inj hcl).symm

/-- C1 witness: the line `x**2 = 4` has relation `=`, one variable and
degree 2, and is classified `quadratic`. -/
theorem C1_witness :
    ({ id := 1, raw := "x**2 = 4", vars := ["x"], equation_type := "quadratic",
       relation := "=", lhs := Json.jpow (.jvar "x") (.constInt 2),
       rhs := Json.constInt 4 } : Equation).equation_type =
      if 2 ≤ 1 then "linear" else if 2 = 2 then "quadratic" else "polynomial" :=
  @C1_degree_classification "x**2 = 4" 1
    { id := 1, raw := "x**2 = 4", vars := ["x"], equation_type := "quadratic",
      relation := "=", lhs := Json.jpow (.jvar "x") (.constInt 2),
      rhs := Json.constInt 4 }
    (.pow (.sym "x") (.num 2)) (.num 4)
    (.add (.cons (.num (-4)) (.cons (.pow (.sym "x") (.num 2)) .nil))) 2
    (by with_unfolding_all decide) (by with_unfolding_all decide)
    (by with_unfolding_all decide) (by with_unfolding_all decide)
    (by with_unfolding_all decide) (by with_unfolding_all decide)
    (by with_unfolding_all decide) (by with_unfolding_all decide)

/-- C1 counterexample: for `x*y = 2` the difference `x*y - 2` is a
polynomial of (total) degree 2 in the equation's variables, yet the record
is classified `linear`, not `quadratic`: the code measures the degree in
the first generator only. -/
theorem C1_counterexample :
    parseEquation "x*y = 2" 1 = .ok (some
      { id := 1, raw := "x*y = 2",
        vars := ["x", "y"], equation_type := "linear", relation := "=",
        lhs := .jprod (.cons (.jvar "x") (.cons (.jvar "y") .nil)),
        rhs := .constInt 2 }) ∧
    symSub (.mul (.cons (.sym "x") (.cons (.sym "y") .nil))) (.num 2) =
      some (.add (.cons (.num (-2))
        (.cons (.mul (.cons (.sym "x") (.cons (.sym "y") .nil))) .nil))) ∧
    specTotalDeg ["x", "y"]
      (.add (.cons (.num (-2))
        (.cons (.mul (.cons (.sym "x") (.cons (.sym "y") .nil))) .nil))) = some 2 := by
  with_unfolding_all decide

/-- C2: relation detection tries the operators in the priority order
`>=, <=, =, >, <` and splits at the leftmost occurrence of the first
operator that occurs at all: a present `>=` always wins and is split at
its leftmost occurrence, `=` is only reached when neither two-character
operator occurs, no occurring operator means no relation (the string is
returned unsplit), and a line whose detected side is empty after trimming
is skipped with no record and no error. -/
theorem C2_relation_detection :
    (detectRelation "x >= 2".data = (">=".data, "x".data, "2".data)) ∧
    (∀ s a b, splitFirst ">=".data s = some (a, b) →
      detectRelation s = (">=".data, pyStrip a, pyStrip b) ∧
      s = a ++ ">=".data ++ b ∧
      ∀ c e, s = c ++ ">=".data ++ e → a.length ≤ c.length) ∧
    (∀ s a b, containsSub s ">=".data = false → containsSub s "<=".data = false →
      splitFirst "=".data s = some (a, b) →
      detectRelation s = ("=".data, pyStrip a, pyStrip b)) ∧
    (∀ s, (∀ rel ∈ relPriority, containsSub s rel = false) →
      detectRelation s = ([], s, [])) ∧
    (∀ (line : String) (i : Nat), parsePiecewise (pyStrip line.data) = none →
      ((detectRelation (normalizeLine (pyStrip line.data))).2.1 = [] ∨
       (detectRelation (normalizeLine (pyStrip line.data))).2.2 = []) →
      parseEquation line i = .ok none) := by
  refine ⟨by with_unfolding_all decide, ?_, ?_, ?_, ?_⟩
  · intro s a b h
    exact ⟨detectRelation_ge h, (splitFirst_spec (by decide) h).1,
      (splitFirst_spec (by decide) h).2⟩
  · intro s a b h1 h2 h
    exact detectRelation_eq h1 h2 h
  · intro s h
    exact detectRelation_not_found h
  · intro line i hpw hdet
    exact parseEquation_skip hpw (Or.inr hdet)

/-- C2 witness: a string with none of the five operators yields no
relation and is returned unsplit. -/
theorem C2_witness : detectRelation "abc".data = ([], "abc".data, []) :=
  C2_relation_detection.2.2.2.1 "abc".data (by with_unfolding_all decide)

/-- C3: refuted by the line `x<2=3` — relation detection splits it at `=`
into `x<2` and `3`, the left side sympifies to a relational, and the
subtraction `lhs - rhs` performed outside any `try` in the `=` branch of
`_classify_equation` raises an uncaught `TypeError` (modelled as
`Except.error`) that escapes `parse_equation` and aborts the whole batch. -/
theorem C3_uncaught_exception :
    parseEquation "x<2=3" 1 = .error () ∧
    parseEquationsFile ["x = 1", "x<2=3", "y = 2"] = .error () := by
  with_unfolding_all decide

/-- C4: corrected — division never produces a `quotient` node: no
serialized tree of any surviving record contains one, because the sympy
expression model has no quotient class (division is a `Mul` with a
negative `Pow` or a `Rational` constant) and the serializer has no branch
that emits a `quotient` node. -/
theorem C4_no_quotient {line : String} {i : Nat} {eq : Equation}
    (h : parseEquation line i = .ok (some eq)) :
    jsonHasQuotient eq.lhs = false ∧ jsonHasQuotient eq.rhs = false := by
  unfold parseEquation at h
  by_cases hq : pyStrip line.data = []
  · simp [hq] at h
  · simp only [hq, if_neg, if_false] at h
    match hpw : parsePiecewise (pyStrip line.data), h with
    | some pw, h =>
      simp only [hpw, Except.ok.injEq, Option.some.injEq] at h
      subst h
      obtain ⟨hl, ⟨parts, hr2⟩⟩ := parsePiecewise_fields hpw
      constructor
      · show jsonHasQuotient pw.lhs = false
        rw [hl]
        rfl
      · show jsonHasQuotient pw.rhs = false
        rw [hr2]
        exact processBranches_noQuot parts
    | none, h =>
      simp only [hpw] at h
      rcases hdet : detectRelation (normalizeLine (pyStrip line.data))
        with ⟨rel, lhsS, rhsS⟩
      rw [hdet] at h
      simp only at h
      by_cases hc :
          (decide (rel = []) || decide (lhsS = []) || decide (rhsS = [])) = true
      · rw [if_pos hc] at h
        simp at h
      · rw [if_neg hc] at h
        rcases he1 : sympify lhsS with _ | l <;>
          rcases he2 : sympify rhsS with _ | r <;> rw [he1, he2] at h
        · simp at h
        · simp at h
        · simp at h
        · simp only at h
          rcases hcl : classifyEquation l r rel (symsUnion l r) with e | ty <;>
            rw [hcl] at h
          · simp at h
          · simp only [Except.ok.injEq, Option.some.injEq] at h
            subst h
            exact ⟨exprToJson_no_quotient l, exprToJson_no_quotient r⟩

/-- C4 witness: the record parsed from `x/(x+1) = 1` — a division whose
reciprocal is not exactly representable as a constant — contains no
`quotient` node on either side. -/
theorem C4_witness :
    jsonHasQuotient (Json.jprod (.cons (.jvar "x") (.cons (.jpow
      (.jsum (.cons (.constInt 1) (.cons (.jvar "x") .nil)))
      (.constInt (-1))) .nil))) = false ∧
    jsonHasQuotient (Json.constInt 1) = false :=
  @C4_no_quotient "x/(x+1) = 1" 1
    { id := 1, raw := "x/(x+1) = 1", vars := ["x"], equation_type := "rational",
      relation := "=",
      lhs := .jprod (.cons (.jvar "x") (.cons (.jpow
        (.jsum (.cons (.constInt 1) (.cons (.jvar "x") .nil)))
        (.constInt (-1))) .nil)),
      rhs := .constInt 1 }
    (by with_unfolding_all decide)

/-- C4 counterexample: the division in `x/(x+1) = 1` is serialized as a
`product` with a negative `power`, not as a `quotient` node; already in
the sympy model `x/(x+1)` is `Mul(x, Pow(Add(1, x), -1))`. -/
theorem C4_counterexample :
    parseEquation "x/(x+1) = 1" 1 = .ok (some
      { id := 1, raw := "x/(x+1) = 1",
        vars := ["x"], equation_type := "rational", relation := "=",
        lhs := .jprod (.cons (.jvar "x") (.cons (.jpow
          (.jsum (.cons (.constInt 1) (.cons (.jvar "x") .nil)))
          (.constInt (-1))) .nil)),
        rhs := .constInt 1 }) ∧
    sympify "x/(x+1)".data = some (.mul (.cons (.sym "x")
      (.cons (.pow (.add (.cons (.num 1) (.cons (.sym "x") .nil)))
        (.num (-1))) .nil))) := by
  with_unfolding_all decide

/-- C5: the exact parse of `3x + 5 = 11`: relation `=`, variables `[x]`,
type `linear`, rhs `Constant(11)` — and the sum's term order is
`Constant(5)` first, then `Product(Constant(3), Variable(x))` (sympy's
canonical `Add` order puts the numeric term first). -/
theorem C5_concrete_parse :
    parseEquation "3x + 5 = 11" 1 = .ok (some
      { id := 1, raw := "3x + 5 = 11",
        vars := ["x"], equation_type := "linear", relation := "=",
        lhs := .jsum (.cons (.constInt 5) (.cons (.jprod (.cons (.constInt 3)
          (.cons (.jvar "x") .nil))) .nil)),
        rhs := .constInt 11 }) := by
  with_unfolding_all decide

/-- C5 counterexample: the claimed term order — the product before the
constant — is not what the parser produces. -/
theorem C5_counterexample :
    parseEquation "3x + 5 = 11" 1 ≠ .ok (some
      { id := 1, raw := "3x + 5 = 11",
        vars := ["x"], equation_type := "linear", relation := "=",
        lhs := .jsum (.cons (.jprod (.cons (.constInt 3)
          (.cons (.jvar "x") .nil))) (.cons (.constInt 5) .nil)),
        rhs := .constInt 11 }) := by
  with_unfolding_all decide

/-- C6: classification of a surviving non-piecewise line whose detected
relation is not `=`: a successful degree analysis with degree ≤ 1 yields
`inequality_linear` and degree > 1 yields `inequality_polynomial`, but the
analysis is only attempted when the variable set is nonempty — a failed
subtraction, a failed degree analysis or an empty variable set (the
variable-free case the claim assigns to `inequality_linear`) all yield the
bare `inequality` tag. -/
theorem C6_inequality_classification {line : String} {i : Nat} {eq : Equation}
    {lhs rhs : SymExpr}
    (hpw : parsePiecewise (pyStrip line.data) = none)
    (h : parseEquation line i = .ok (some eq))
    (hrel : (detectRelation (normalizeLine (pyStrip line.data))).1 ≠ ['='])
    (hl : sympify (detectRelation (normalizeLine (pyStrip line.data))).2.1 = some lhs)
    (hr : sympify (detectRelation (normalizeLine (pyStrip line.data))).2.2 = some rhs) :
    (symSub lhs rhs = none → eq.equation_type = "inequality") ∧
    (symsUnion lhs rhs = [] → eq.equation_type = "inequality") ∧
    (∀ expr, symSub lhs rhs = some expr →
      polyDegFirst expr (symsUnion lhs rhs) = none →
      eq.equation_type = "inequality") ∧
    (∀ expr d, symSub lhs rhs = some expr → symsUnion lhs rhs ≠ [] →
      polyDegFirst expr (symsUnion lhs rhs) = some d →
      eq.equation_type =
        if d ≤ 1 then "inequality_linear" else "inequality_polynomial") := by
  obtain ⟨l, r, he1, he2, _, _, hcl⟩ := parseEquation_classified hpw h
  rw [hl] at he1
  rw [hr] at he2
  obtain rfl : l = lhs := (Option.some.inj he1).symm
  obtain rfl : r = rhs := (Option.some.inj he2).symm
  unfold classifyEquation at hcl
  rw [if_pos hrel] at hcl
  replace hcl := Except.ok.inj hcl
  refine ⟨?_, ?_, ?_, ?_⟩
  · intro hsub
    rw [hsub] at hcl
    exact hcl.symm
  · intro hs
    rcases hsub : symSub l r with _ | expr <;> rw [hsub] at hcl
    · exact hcl.symm
    · simp only at hcl
      rw [if_neg (by simp [hs])] at hcl
      exact hcl.symm
  · intro expr hsub hpoly
    rw [hsub] at hcl
    simp only at hcl
    by_cases hv : symsUnion l r = []
    · rw [if_neg (by simp [hv])] at hcl
      exact hcl.symm
    · rw [if_pos hv, hpoly] at hcl
      exact hcl.symm
  · intro expr d hsub hv hpoly
    rw [hsub] at hcl
    simp only at hcl
    rw [if_pos hv, hpoly] at hcl
    exact hcl.symm

/-- C6 witness: `x < 2` has one variable and degree 1, and is classified
`inequality_linear`. -/
theorem C6_witness :
    ({ id := 1, raw := "x < 2", vars := ["x"],
       equation_type := "inequality_linear", relation := "<",
       lhs := Json.jvar "x", rhs := Json.constInt 2 } : Equation).equation_type =
      if 1 ≤ 1 then "inequality_linear" else "inequality_polynomial" :=
  (@C6_inequality_classification "x < 2" 1
    { id := 1, raw := "x < 2", vars := ["x"],
      equation_type := "inequality_linear", relation := "<",
      lhs := Json.jvar "x", rhs := Json.constInt 2 }
    (.sym "x") (.num 2)
    (by with_unfolding_all decide) (by with_unfolding_all decide)
    (by with_unfolding_all decide) (by with_unfolding_all decide)
    (by with_unfolding_all decide)).2.2.2
    (.add (.cons (.num (-2)) (.cons (.sym "x") .nil))) 1
    (by with_unfolding_all decide) (by with_unfolding_all decide)
    (by with_unfolding_all decide)

/-- C6 counterexample: the variable-free inequality `1 < 2` — its
difference is the degree-0 polynomial `-1`, so the claim assigns
`inequality_linear`, but the code skips the degree analysis when the
variable set is empty and produces the bare `inequality` tag. -/
theorem C6_counterexample :
    parseEquation "1 < 2" 1 = .ok (some
      { id := 1, raw := "1 < 2", vars := [],
        equation_type := "inequality", relation := "<",
        lhs := .constInt 1, rhs := .constInt 2 }) ∧
    symSub (.num 1) (.num 2) = some (.num (-1)) ∧
    specTotalDeg [] (.num (-1)) = some 0 := by
  with_unfolding_all decide

/-- C7: corrected — the branch loop keeps exactly the `;`-separated parts
that are nonempty after trimming and contain a comma; a kept branch whose
expression or condition fails to sympify is recorded with `Constant`
fallback nodes holding the raw (normalized) sub-strings, but a part
without a comma is silently dropped, so the branch count is not preserved
in general. -/
theorem C7_branch_preservation :
    (∀ parts : List (List Char), (processBranches parts).length =
      parts.countP (fun p => decide (pyStrip p ≠ []) &&
        (rfindChar ',' (pyStrip p)).isSome)) ∧
    (∀ (p : List Char) (idx : Nat), pyStrip p ≠ [] →
      rfindChar ',' (pyStrip p) = some idx →
      (sympify (normalizeLine ((pyStrip p).take idx)) = none ∨
       sympify (normalizeLine ((pyStrip p).drop (idx + 1))) = none) →
      branchOf p = some
        (Json.constStr (String.mk (normalizeLine ((pyStrip p).drop (idx + 1)))),
         Json.constStr (String.mk (normalizeLine ((pyStrip p).take idx))))) :=
  ⟨processBranches_length, fun p idx h1 h2 h3 => @branchOf_fallback p idx h1 h2 h3⟩

/-- C7 witness: the branch part `) , x > 0` — whose expression half `)`
fails to sympify — is kept, with constant fallback nodes holding the raw
halves. -/
theorem C7_witness :
    branchOf ") , x > 0".data = some
      (Json.constStr (String.mk (normalizeLine ((pyStrip ") , x > 0".data).drop 3))),
       Json.constStr (String.mk (normalizeLine ((pyStrip ") , x > 0".data).take 2)))) :=
  C7_branch_preservation.2 ") , x > 0".data 2 (by with_unfolding_all decide)
    (by with_unfolding_all decide) (Or.inl (by with_unfolding_all decide))

/-- C7 counterexample: the piecewise line `f(x) = { x , x > 0 ; 3 }` has
two `;`-separated branches, but the second (`3`, no comma) is dropped:
the output holds one branch, so the branch count is not preserved. -/
theorem C7_counterexample :
    parseEquation "f(x) = \x7b x , x > 0 ; 3 \x7d" 1 = .ok (some
      { id := 1, raw := "f(x) = \x7b x , x > 0 ; 3 \x7d", vars := ["x"],
        equation_type := "piecewise", relation := "=",
        lhs := .jfuncDef "f" "x",
        rhs := .jpiecewise (.cons (.jrel ">" (.jvar "x") (.constInt 0))
          (.jvar "x") .nil) }) ∧
    (splitOnChar ';' (pyStrip " x , x > 0 ; 3 ".data)).length = 2 ∧
    JBranches.length (.cons (.jrel ">" (.jvar "x") (.constInt 0))
      (.jvar "x") .nil) = 1 := by
  with_unfolding_all decide

/-- C8: the batch result's count equals the number of surviving records;
the records are exactly the per-line survivors in input order, each line
paired with its 1-based position; every surviving record's id is its
original line position (so its line can be recovered from the input, and a
skipped line leaves a gap in the id sequence); and a blank line produces
no record and no error. -/
theorem C8_batch_contract {lines : List String} {res : ParseResult}
    (h : parseEquationsFile lines = .ok res) :
    res.count = res.equations.length ∧
    res.equations = (List.enumFrom 1 lines).filterMap
      (fun p => okOrNone (parseEquation p.2 p.1)) ∧
    (∀ eq ∈ res.equations, 1 ≤ eq.id ∧
      ∃ l, lines.get? (eq.id - 1) = some l ∧
        parseEquation l eq.id = .ok (some eq)) ∧
    (∀ j, parseEquation "" j = .ok none) := by
  unfold parseEquationsFile at h
  simp only [Bind.bind, Except.bind] at h
  rcases hp : parseLinesFrom 1 lines with e | eqs <;> rw [hp] at h
  · simp at h
  · simp only [Except.ok.injEq] at h
    subst h
    have heqs := parseLinesFrom_eq lines 1 eqs hp
    refine ⟨rfl, heqs, ?_, fun j => parseEquation_blank j⟩
    intro eq hmem
    rw [show ({ count := eqs.length, equations := eqs } : ParseResult).equations
      = eqs from rfl, heqs] at hmem
    obtain ⟨p, hpmem, hsome⟩ := List.mem_filterMap.mp hmem
    have hok : parseEquation p.2 p.1 = .ok (some eq) := by
      rcases hres : parseEquation p.2 p.1 with e2 | o <;> rw [hres] at hsome <;>
        simp only [okOrNone] at hsome
      · exact absurd hsome (by simp)
      · rw [hsome]
    have hid : eq.id = p.1 := parseEquation_id hok
    obtain ⟨h1, h2⟩ := mem_enumFrom_get lines 1 p hpmem
    refine ⟨by omega, p.2, ?_, ?_⟩
    · rw [hid]
      exact h2
    · rw [hid]
      exact hok

/-- C8 witness: the batch `["x = 1", "", "y = 2"]` — the blank second line
is skipped without error, the two survivors keep input order, and their
ids 1 and 3 leave a gap at 2. -/
theorem C8_witness :
    (2 = ([{ id := 1, raw := "x = 1", vars := ["x"], equation_type := "linear",
             relation := "=", lhs := Json.jvar "x", rhs := Json.constInt 1 },
           { id := 3, raw := "y = 2", vars := ["y"], equation_type := "linear",
             relation := "=", lhs := Json.jvar "y", rhs := Json.constInt 2 }]
          : List Equation).length) ∧
    (([{ id := 1, raw := "x = 1", vars := ["x"], equation_type := "linear",
         relation := "=", lhs := Json.jvar "x", rhs := Json.constInt 1 },
       { id := 3, raw := "y = 2", vars := ["y"], equation_type := "linear",
         relation := "=", lhs := Json.jvar "y", rhs := Json.constInt 2 }]
        : List Equation) = (List.enumFrom 1 ["x = 1", "", "y = 2"]).filterMap
          (fun p => okOrNone (parseEquation p.2 p.1))) ∧
    (∀ eq ∈ ([{ id := 1, raw := "x = 1", vars := ["x"], equation_type := "linear",
                relation := "=", lhs := Json.jvar "x", rhs := Json.constInt 1 },
              { id := 3, raw := "y = 2", vars := ["y"], equation_type := "linear",
                relation := "=", lhs := Json.jvar "y", rhs := Json.constInt 2 }]
              : List Equation), 1 ≤ eq.id ∧
      ∃ l, ["x = 1", "", "y = 2"].get? (eq.id - 1) = some l ∧
        parseEquation l eq.id = .ok (some eq)) ∧
    (∀ j, parseEquation "" j = .ok none) :=
  @C8_batch_contract ["x = 1", "", "y = 2"]
    { count := 2,
      equations := [{ id := 1, raw := "x = 1", vars := ["x"],
                      equation_type := "linear", relation := "=",
                      lhs := Json.jvar "x", rhs := Json.constInt 1 },
                    { id := 3, raw := "y = 2", vars := ["y"],
                      equation_type := "linear", relation := "=",
                      lhs := Json.jvar "y", rhs := Json.constInt 2 }] }
    (by with_unfolding_all decide)

/-- C9: in every serialized tree of every surviving record, no `sum` node
has a direct `sum` child and no `product` node has a direct `product`
child: sympy's evaluating constructors flatten same-kind nodes, and the
canonical form is preserved through subtraction, classification and
serialization, fallback constants included. -/
theorem C9_no_nested_sums_products {line : String} {i : Nat} {eq : Equation}
    (h : parseEquation line i = .ok (some eq)) :
    noNestedJson eq.lhs = true ∧ noNestedJson eq.rhs = true :=
  parseEquation_noNested h

/-- C9 witness: the record of `2*(x+1) = 4` — whose lhs sympifies through
the distributing `Add`/`Mul` constructors — has no directly nested
same-kind nodes. -/
theorem C9_witness :
    noNestedJson (Json.jsum (.cons (.constInt 2) (.cons (.jprod
      (.cons (.constInt 2) (.cons (.jvar "x") .nil))) .nil))) = true ∧
    noNestedJson (Json.constInt 4) = true :=
  @C9_no_nested_sums_products "2*(x+1) = 4" 1
    { id := 1, raw := "2*(x+1) = 4", vars := ["x"], equation_type := "linear",
      relation := "=",
      lhs := .jsum (.cons (.constInt 2) (.cons (.jprod
        (.cons (.constInt 2) (.cons (.jvar "x") .nil))) .nil)),
      rhs := .constInt 4 }
    (by with_unfolding_all decide)

/-- C10: no input line ever produces equation_type `parametric`: the
parametric rule re-runs the degree analysis already performed by the
linear/quadratic/polynomial rules on the same expression and generator
set, so whenever it would succeed the earlier rule has already returned;
piecewise lines are tagged `piecewise`. -/
theorem C10_never_parametric {line : String} {i : Nat} {eq : Equation}
    (h : parseEquation line i = .ok (some eq)) :
    eq.equation_type ≠ "parametric" := by
  rcases hpw : parsePiecewise (pyStrip line.data) with _ | pw
  · intro hcontra
    obtain ⟨l, r, _, _, _, _, hcl⟩ := parseEquation_classified hpw h
    rw [hcontra] at hcl
    exact classifyEquation_ne_parametric l r _ _ hcl
  · unfold parseEquation at h
    by_cases hq : pyStrip line.data = []
    · simp [hq] at h
    · simp only [hq, if_neg, if_false, hpw, Except.ok.injEq,
        Option.some.injEq] at h
      subst h
      show pw.equation_type ≠ "parametric"
      rw [parsePiecewise_type hpw]
      decide

/-- C10 witness: `x + y = 1` — two variables and degree 1, the very shape
the parametric rule targets — is classified `linear`, not `parametric`. -/
theorem C10_witness :
    ({ id := 1, raw := "x + y = 1", vars := ["x", "y"],
       equation_type := "linear", relation := "=",
       lhs := Json.jsum (.cons (.jvar "x") (.cons (.jvar "y") .nil)),
       rhs := Json.constInt 1 } : Equation).equation_type ≠ "parametric" :=
  @C10_never_parametric "x + y = 1" 1
    { id := 1, raw := "x + y = 1", vars := ["x", "y"],
      equation_type := "linear", relation := "=",
      lhs := Json.jsum (.cons (.jvar "x") (.cons (.jvar "y") .nil)),
      rhs := Json.constInt 1 }
    (by with_unfolding_all decide)
